import Mathlib

/-!
# btw: error tracing, context attachment and report formatting

A shallow embedding of `error.go` (package `btw`).

## Modelling conventions

* Go `error` interface values are the inductive type `error`: the nil
  interface, a foreign ("plain") error with its message text and the result of
  its `Unwrap`, or a pointer `*Error` given by the address of the object.
* `*Error` objects live in a `Heap` (a list; the address is the index).
  Allocation appends to the heap, so a fresh address is `h.length`.  `Attach`
  mutates an object in place, which is `List.set` at its address.  An address
  that is not allocated behaves like a nil pointer: dereferencing it panics.
* A call that panics or does not terminate is `none`.  Walks along pointers
  (`Error()`, the loop of `Format`) carry a fuel argument, because a heap may
  hold a cycle; theorems state that enough fuel gives the result.
* `runtime` and `fmt` are outside the repository.  The call stack reported by
  the runtime and the name of the caller are arguments of `Trace` and `Attach`;
  the verbose rendering of a context value is the argument `sprintfV`.
  `%v` of a foreign error is its `Error()` text, `%d` is the decimal numeral,
  `%*s` pads by rune count and prints `%!(BADWIDTH)` for a width above 10^6.
  `fmt` recovers a panic of `Error()` and writes `<nil>` or a `PANIC` note.
* Go strings are Lean strings: `len` is `String.utf8ByteSize`, the rune count
  is `String.length`.
-/

namespace Btw

/-! ## Data model -/

/-- A Go `error` interface value. -/
inductive error where
  /-- The nil interface value. -/
  | nil : error
  /-- An error of a foreign type: `msg` is what `Error()` returns and `cause`
  what `Unwrap()` returns (`nil` when the type has no `Unwrap` method). -/
  | plain (msg : String) (cause : error) : error
  /-- A `*Error`, the pointer to the object at address `addr`. -/
  | annotated (addr : Nat) : error
  deriving DecidableEq, Repr, Inhabited

/-- One entry of a call stack: `type Frame struct`. -/
structure Frame where
  Func : String
  File : String
  Line : Int
  deriving DecidableEq, Repr

/-- The zero value of `Frame`. -/
instance : Inhabited Frame := ⟨⟨"", "", 0⟩⟩

/-- One call of `Attach`: `type Layer struct`. -/
structure Layer where
  Func : String
  Values : List String
  deriving DecidableEq, Repr, Inhabited

/-- The object behind a `*Error`: `type Error struct`. -/
structure Error where
  Err : error
  Stack : List Frame
  Context : List Layer
  deriving DecidableEq, Repr, Inhabited

/-- The allocated `Error` objects; the address of an object is its index. -/
abbrev Heap := List Error

/-! ## Methods of `*Error` and the walk along causes -/

/-- The call `err.Error()` on an interface value.  For a `*Error` this is
`func (e *Error) Error() string { return e.Err.Error() }`.  The result is
`none` when the call panics (nil interface, nil pointer) or runs out of
fuel. -/
def error.Error (h : Heap) : Nat → error → Option String
  | _, .nil => none
  | _, .plain msg _ => some msg
  | 0, .annotated _ => none
  | fuel + 1, .annotated p =>
    match h[p]? with
    | none => none
    | some e => error.Error h fuel e.Err

/-- The call `errors.Unwrap(err)` for a non-nil `err`; for a `*Error` this is
`func (e *Error) Unwrap() error { return e.Err }`.  The result is `none` when
the pointer is not allocated (the method dereferences it). -/
def Unwrap (h : Heap) : error → Option error
  | .nil => some .nil
  | .plain _ cause => some cause
  | .annotated p =>
    match h[p]? with
    | none => none
    | some e => some e.Err

/-! ## Trace -/

/-- The loop of `Trace` over `frames.Next()`: the body runs before the test of
`more`, so an exhausted iterator still contributes one zero `Frame`. -/
def Trace.loop : List Frame → List Frame → List Frame
  | [], stack => stack ++ [default]
  | [f], stack => stack ++ [f]
  | f :: g :: rest, stack => Trace.loop (g :: rest) (stack ++ [f])

/-- The function `Trace`.  `MaxStackDepth` is the package variable and
`callers` the frames of the call stack as the runtime reports them, starting at
the caller of `Trace`, innermost first.  `make` panics on a negative length. -/
def Trace (MaxStackDepth : Int) (callers : List Frame) (h : Heap) (err : error) :
    Option (Heap × error) :=
  if err = .nil then some (h, .nil)
  else if MaxStackDepth < 0 then none
  else
    let pc := callers.take MaxStackDepth.toNat
    if pc.length = 0 then
      some (h ++ [{ Err := err, Stack := [], Context := [] }], .annotated h.length)
    else
      some (h ++ [{ Err := err, Stack := Trace.loop pc [], Context := [] }],
        .annotated h.length)

/-! ## Attach -/

/-- The function `Attach`.  `sprintfV v` is `fmt.Sprintf("%+v", v)` and
`caller` the function name found through `runtime.Caller(1)`, `none` when the
runtime reports no caller. -/
def Attach {α : Type} (sprintfV : α → String) (caller : Option String) (h : Heap)
    (err : error) (ctx : List α) : Option (Heap × error) :=
  if err = .nil then some (h, .nil)
  else
    let (h1, p) : Heap × Nat :=
      match err with
      | .annotated p => (h, p)
      | _ => (h ++ [{ Err := err, Stack := [], Context := [] }], h.length)
    let ctx := ctx.take (ctx.length / 2 * 2)
    if ctx.length = 0 then some (h1, .annotated p)
    else
      let l : Layer :=
        { Func := match caller with
            | some name => name
            | none => "???"
          Values := ctx.map sprintfV }
      match h1[p]? with
      | none => none
      | some e => some (h1.set p { e with Context := e.Context ++ [l] }, .annotated p)

/-! ## Library functions used by the formatter -/

/-- The call `strings.Repeat("\t", l)`. -/
def tabs (l : Nat) : String := String.mk (List.replicate l '\t')

/-- The function `path.Base` of the standard library. -/
def path.Base (p : String) : String :=
  if p = "" then "."
  else
    let stripped := (p.data.reverse.dropWhile (fun c => c = '/')).reverse
    let last := (stripped.reverse.takeWhile (fun c => c ≠ '/')).reverse
    if last = [] then "/" else String.mk last

/-- Blanks written by `fmt` to fill a field of width `w` around `s`. -/
def padding (w : Int) (s : String) : String :=
  String.mk (List.replicate (w - s.length).toNat ' ')

/-- The verb `%-*s`: `s` left-justified in a field of width `w`. -/
def fmtLeft (w : Int) (s : String) : String :=
  if w > 1000000 ∨ w < -1000000 then "%!(BADWIDTH)" ++ s
  else s ++ padding (if w < 0 then -w else w) s

/-- The verb `%*s`: `s` right-justified in a field of width `w` (a negative
width sets the minus flag). -/
def fmtRight (w : Int) (s : String) : String :=
  if w > 1000000 ∨ w < -1000000 then "%!(BADWIDTH)" ++ s
  else if w < 0 then s ++ padding (-w) s
  else padding w s ++ s

/-! ## Format -/

/-- The line of one frame, as `formatStack` builds it with `Sprintf`. -/
def frameLine (l : Nat) (f : Frame) : String :=
  "\n" ++ tabs l ++ "from " ++ path.Base f.Func ++ "() at " ++ f.File ++ ":" ++ toString f.Line

/-- The summary line of `formatStack`; `n` is `count+1`. -/
def summaryLine (l : Nat) (n : Nat) : String :=
  "\n" ++ tabs l ++ "     ... * " ++ toString n

/-- The loop of `formatStack` over the frames from index `i` on, with the
local variables `count` and `prev` and the builder `b`. -/
def formatStack.loop (l : Nat) : List Frame → Nat → String → String → String
  | [], _, _, b => b
  | f :: rest, count, prev, b =>
    let curr := frameLine l f
    if prev = curr then formatStack.loop l rest (count + 1) prev b
    else
      let b1 := if count ≠ 0 then b ++ summaryLine l (count + 1) else b
      formatStack.loop l rest 0 curr (b1 ++ curr)

/-- The function `formatStack`; the result is the content of the builder
afterwards. -/
def formatStack (l : Nat) (e : Error) (b : String) : String :=
  formatStack.loop l e.Stack 0 "" b

/-- The function `max`. -/
def max (a b : Int) : Int := if a > b then a else b

/-- The inner loop of the first pass of `formatContext`: the items of one
layer from index `i` on. -/
def formatContext.widthValues (MaxColumnWidth : Int) :
    List String → Nat → Int × Int → Int × Int
  | [], _, w => w
  | item :: rest, i, w =>
    let n : Int := item.utf8ByteSize
    let w1 :=
      if n ≤ MaxColumnWidth then
        (if i % 2 = 0 then (max w.1 n, w.2) else (w.1, max w.2 n))
      else w
    formatContext.widthValues MaxColumnWidth rest (i + 1) w1

/-- The first pass of `formatContext`: the array `maxWidth`. -/
def formatContext.maxWidth (MaxColumnWidth : Int) : List Layer → Int × Int → Int × Int
  | [], w => w
  | layer :: rest, w =>
    formatContext.maxWidth MaxColumnWidth rest
      (formatContext.widthValues MaxColumnWidth layer.Values 0 w)

/-- The inner loop of the second pass of `formatContext`: the values of one
layer from index `i` on (`i` advances by two while `i < len-1`), with the set
`tags` and the builder `b`. -/
def formatContext.pairs (l : Nat) (w : Int × Int) (func : String) :
    List String → Nat → List String → String → List String × String
  | k :: v :: rest, i, tags, b =>
    if k ∈ tags then formatContext.pairs l w func rest (i + 2) tags b
    else
      let b1 := b ++ ("\n" ++ tabs l ++ "[ " ++ fmtLeft w.1 k ++ " ]")
      let b2 := b1 ++ ("    " ++ fmtRight w.2 v)
      let b3 := if i = 0 then b2 ++ ("    by " ++ path.Base func ++ "()") else b2
      formatContext.pairs l w func rest (i + 2) (k :: tags) b3
  | _, _, tags, b => (tags, b)

/-- The second pass of `formatContext` over the layers. -/
def formatContext.layers (l : Nat) (w : Int × Int) :
    List Layer → List String → String → String
  | [], _, b => b
  | layer :: rest, tags, b =>
    let r := formatContext.pairs l w layer.Func layer.Values 0 tags b
    formatContext.layers l w rest r.1 r.2

/-- The function `formatContext`; the result is the content of the builder
afterwards. -/
def formatContext (MaxColumnWidth : Int) (l : Nat) (e : Error) (b : String) : String :=
  formatContext.layers l (formatContext.maxWidth MaxColumnWidth e.Context (0, 0)) e.Context [] b

/-- The loop of `Format` with the local variables `level` and `err` and the
builder `b`. -/
def Format.loop (MaxColumnWidth : Int) (h : Heap) : Nat → Nat → error → String → Option String
  | _, _, .nil, b => some b
  | 0, _, _, _ => none
  | fuel + 1, level, .plain _ cause, b => Format.loop MaxColumnWidth h fuel level cause b
  | fuel + 1, level, .annotated p, b =>
    match h[p]? with
    | none => none
    | some e =>
      Format.loop MaxColumnWidth h fuel (level + 1) e.Err
        (formatContext MaxColumnWidth level e (formatStack level e b))

/-- How a call of `err.Error()` ends. -/
inductive Outcome where
  /-- The call returns the text. -/
  | returns (text : String) : Outcome
  /-- The call panics with a nil dereference. -/
  | panics : Outcome
  /-- The fuel ran out before the call ended. -/
  | unfinished : Outcome
  deriving DecidableEq, Repr

/-- The call `err.Error()` with the way it ends: a method call on the nil
interface and the dereference of a pointer that is not allocated panic, a
foreign error returns its text, and a `*Error` hands on to `e.Err.Error()`. -/
def error.ErrorOutcome (h : Heap) : Nat → error → Outcome
  | _, .nil => .panics
  | _, .plain msg _ => .returns msg
  | 0, .annotated _ => .unfinished
  | fuel + 1, .annotated p =>
    match h[p]? with
    | none => .panics
    | some e => error.ErrorOutcome h fuel e.Err

/-- The text `fmt` writes for `%v` of `err`: `<nil>` for the nil interface,
otherwise the result of `err.Error()`.  `fmt` recovers a panic of that call:
it writes `<nil>` when the receiver is a nil pointer and the `PANIC` note with
the text of the runtime error otherwise.  The result is `none` only when the
call does not end. -/
def fmtV (h : Heap) (fuel : Nat) : error → Option String
  | .nil => some "<nil>"
  | .plain msg _ => some msg
  | .annotated p =>
    match h[p]? with
    | none => some "<nil>"
    | some _ =>
      match error.ErrorOutcome h fuel (.annotated p) with
      | .returns text => some text
      | .panics =>
        some "%!v(PANIC=Error method: runtime error: invalid memory address or nil pointer dereference)"
      | .unfinished => none

/-- The function `Format`. -/
def Format (MaxColumnWidth : Int) (h : Heap) (fuel : Nat) (err : error) : Option String :=
  match fmtV h fuel err with
  | none => none
  | some text => Format.loop MaxColumnWidth h fuel 1 err ("error: " ++ text)

/-! ## Well-formed states -/

/-- Every pointer inside the value addresses one of the first `n` objects. -/
def error.closed (n : Nat) : error → Prop
  | .nil => True
  | .plain _ cause => error.closed n cause
  | .annotated p => p < n

instance error.closedDecidable (n : Nat) : (err : error) → Decidable (error.closed n err)
  | .nil => isTrue trivial
  | .plain _ cause => error.closedDecidable n cause
  | .annotated p => inferInstanceAs (Decidable (p < n))

/-- No object of the heap holds a pointer to an address that is not
allocated. -/
def Heap.closed (h : Heap) : Prop := ∀ e ∈ h, error.closed h.length e.Err

instance Heap.closedDecidable (h : Heap) : Decidable (Heap.closed h) :=
  inferInstanceAs (Decidable (∀ e ∈ h, error.closed h.length e.Err))

/-- The heaps that arise from the empty heap by calls of `Trace` and `Attach`
alone, with arbitrary arguments. -/
inductive Built {α : Type} (sprintfV : α → String) : Heap → Prop where
  | empty : Built sprintfV []
  | trace {h h1 : Heap} {r : error} (M : Int) (callers : List Frame) (err : error) :
      Built sprintfV h → Trace M callers h err = some (h1, r) → Built sprintfV h1
  | attach {h h1 : Heap} {r : error} (caller : Option String) (err : error) (ctx : List α) :
      Built sprintfV h → Attach sprintfV caller h err ctx = some (h1, r) → Built sprintfV h1

/-- The chain of causes of `err` is finite: following `errors.Unwrap` from
`err` reaches nil, and every `*Error` on the way is allocated. -/
inductive ChainEnds (h : Heap) : error → Prop where
  | nil : ChainEnds h .nil
  | plain (msg : String) {cause : error} : ChainEnds h cause → ChainEnds h (.plain msg cause)
  | annotated {p : Nat} {e : Error} :
      h[p]? = some e → ChainEnds h e.Err → ChainEnds h (.annotated p)

/-- The chain of causes of `err` is finite and every `*Error` on it has an
empty `Stack` and an empty `Context`. -/
inductive Bare (h : Heap) : error → Prop where
  | nil : Bare h .nil
  | plain (msg : String) {cause : error} : Bare h cause → Bare h (.plain msg cause)
  | annotated {p : Nat} {e : Error} :
      h[p]? = some e → e.Stack = [] → e.Context = [] → Bare h e.Err →
      Bare h (.annotated p)

/-- The heaps that arise from the empty heap by calls of `Trace` and `Attach`
whose error argument is nil, the result of an earlier call, or a foreign error
that wraps only such results: every pointer in the argument is allocated. -/
inductive Constructed {α : Type} (sprintfV : α → String) : Heap → Prop where
  | empty : Constructed sprintfV []
  | trace {h h1 : Heap} {r : error} (M : Int) (callers : List Frame) (err : error) :
      Constructed sprintfV h → error.closed h.length err →
      Trace M callers h err = some (h1, r) → Constructed sprintfV h1
  | attach {h h1 : Heap} {r : error} (caller : Option String) (err : error) (ctx : List α) :
      Constructed sprintfV h → error.closed h.length err →
      Attach sprintfV caller h err ctx = some (h1, r) → Constructed sprintfV h1

/-- Every object has a non-nil `Err` whose pointers address older objects
only. -/
def Heap.ordered (h : Heap) : Prop :=
  ∀ p e, h[p]? = some e → e.Err ≠ .nil ∧ error.closed p e.Err

/-- The `*Error` objects met when following `errors.Unwrap` from `err` down to
nil, outermost first. -/
inductive Chain (h : Heap) : error → List Error → Prop where
  | nil : Chain h .nil []
  | plain (msg : String) {cause : error} {objs : List Error} :
      Chain h cause objs → Chain h (.plain msg cause) objs
  | annotated {p : Nat} {e : Error} {objs : List Error} :
      h[p]? = some e → Chain h e.Err objs → Chain h (.annotated p) (e :: objs)

/-- One key/value pair of a `Context`, as the second pass of `formatContext`
meets it: the index `layer` of its `Layer`, the index `pos` of the key in
`Values` (the `i` of the loop), the key `Values[i]`, the value `Values[i+1]`
and the `Func` of the layer. -/
structure Entry where
  layer : Nat
  pos : Nat
  key : String
  value : String
  func : String
  deriving DecidableEq, Repr

/-- The pairs of one layer from index `i` on, in the order of the loop
`for i := ...; i < len(Values)-1; i += 2`. -/
def Layer.entries (n : Nat) (func : String) : List String → Nat → List Entry
  | k :: v :: rest, i => ⟨n, i, k, v, func⟩ :: Layer.entries n func rest (i + 2)
  | _, _ => []

/-- The pairs of all layers, layer by layer; `n` is the index of the first
layer. -/
def contextEntries : List Layer → Nat → List Entry
  | [], _ => []
  | layer :: rest, n => Layer.entries n layer.Func layer.Values 0 ++ contextEntries rest (n + 1)

/-- The pairs that pass the test `if _, ok := tags[key]; ok { continue }`,
starting from the set `tags`. -/
def keepUnseen : List Entry → List String → List Entry
  | [], _ => []
  | x :: xs, tags =>
    if x.key ∈ tags then keepUnseen xs tags else x :: keepUnseen xs (x.key :: tags)

/-- The set `tags` after the pairs have been processed. -/
def seenAfter : List Entry → List String → List String
  | [], tags => tags
  | x :: xs, tags => if x.key ∈ tags then seenAfter xs tags else seenAfter xs (x.key :: tags)

/-- The pairs of a `Context` that `formatContext` writes, in order. -/
def rendered (ctx : List Layer) : List Entry := keepUnseen (contextEntries ctx 0) []

/-- The text `formatContext` writes for one pair: the two `Fprintf` calls and,
for `i == 0`, the third. -/
def entryLine (l : Nat) (w : Int × Int) (x : Entry) : String :=
  ("\n" ++ tabs l ++ "[ " ++ fmtLeft w.1 x.key ++ " ]") ++ ("    " ++ fmtRight w.2 x.value)
    ++ (if x.pos = 0 then "    by " ++ path.Base x.func ++ "()" else "")

/-! ## Auxiliary lemmas -/

theorem frameLine_ne_empty (l : Nat) (f : Frame) : frameLine l f ≠ "" := by
  intro hEq
  have hlen := congrArg String.length hEq
  simp only [frameLine, String.length_append] at hlen
  have h1 : ("\n" : String).length = 1 := by decide
  have h0 : ("" : String).length = 0 := by decide
  omega

theorem formatStack.loop_append (l : Nat) :
    ∀ (fs : List Frame) (count : Nat) (prev b : String),
      formatStack.loop l fs count prev b = b ++ formatStack.loop l fs count prev "" := by
  intro fs
  induction fs with
  | nil => intro count prev b; simp [formatStack.loop]
  | cons f rest ih =>
    intro count prev b
    simp only [formatStack.loop]
    by_cases hp : prev = frameLine l f
    · rw [if_pos hp, if_pos hp]
      exact ih _ _ _
    · rw [if_neg hp, if_neg hp, ih _ _ ((if count ≠ 0 then _ else _) ++ _),
        ih _ _ ((if count ≠ 0 then _ else "") ++ _)]
      by_cases hc : count ≠ 0
      · simp only [if_pos hc, String.append_assoc, String.empty_append]
      · simp only [if_neg hc, String.append_assoc, String.empty_append]

theorem formatStack_append (l : Nat) (e : Error) (b : String) :
    formatStack l e b = b ++ formatStack l e "" :=
  formatStack.loop_append l e.Stack 0 "" b

theorem formatContext.pairs_append (l : Nat) (w : Int × Int) (func : String) :
    ∀ (n : Nat) (vs : List String), vs.length ≤ n → ∀ (i : Nat) (tags : List String) (b : String),
      formatContext.pairs l w func vs i tags b
        = ((formatContext.pairs l w func vs i tags "").1,
           b ++ (formatContext.pairs l w func vs i tags "").2) := by
  intro n
  induction n using Nat.strong_induction_on with
  | _ n ih =>
    intro vs hn i tags b
    match vs, hn with
    | [], _ => simp [formatContext.pairs]
    | [_], _ => simp [formatContext.pairs]
    | k :: v :: rest, hn =>
      have hlt : rest.length < n := by simp only [List.length_cons] at hn; omega
      simp only [formatContext.pairs]
      by_cases hk : k ∈ tags
      · rw [if_pos hk, if_pos hk]
        exact ih _ hlt rest (Nat.le_refl _) _ _ _
      · rw [if_neg hk, if_neg hk]
        rw [ih _ hlt rest (Nat.le_refl _) _ _ (if i = 0 then _ else _)]
        rw [ih _ hlt rest (Nat.le_refl _) (i + 2) (k :: tags)
          (if i = 0 then "" ++ _ ++ _ ++ _ else _)]
        by_cases hi : i = 0
        · simp only [if_pos hi, String.append_assoc, String.empty_append]
        · simp only [if_neg hi, String.append_assoc, String.empty_append]

theorem formatContext.layers_append (l : Nat) (w : Int × Int) :
    ∀ (ls : List Layer) (tags : List String) (b : String),
      formatContext.layers l w ls tags b = b ++ formatContext.layers l w ls tags "" := by
  intro ls
  induction ls with
  | nil => intro tags b; simp [formatContext.layers]
  | cons layer rest ih =>
    intro tags b
    simp only [formatContext.layers]
    rw [formatContext.pairs_append l w layer.Func _ layer.Values (Nat.le_refl _) 0 tags b]
    rw [ih _ (b ++ _), ih _ (Prod.snd _), String.append_assoc]

theorem formatContext_append (M : Int) (l : Nat) (e : Error) (b : String) :
    formatContext M l e b = b ++ formatContext M l e "" :=
  formatContext.layers_append l _ e.Context [] b

theorem error.Error_append (h t : Heap) (hh : Heap.closed h) :
    ∀ (fuel : Nat) (err : error), error.closed h.length err →
      error.Error (h ++ t) fuel err = error.Error h fuel err := by
  intro fuel
  induction fuel with
  | zero =>
    intro err _
    cases err <;> simp [error.Error]
  | succ n ih =>
    intro err hc
    cases err with
    | nil => simp [error.Error]
    | plain m c => simp [error.Error]
    | annotated p =>
      have hp : p < h.length := hc
      simp only [error.Error, List.getElem?_append_left hp]
      cases hget : h[p]? with
      | none => rfl
      | some e =>
        have hmem : e ∈ h := List.getElem?_mem hget
        exact ih e.Err (hh e hmem)

theorem take_even_length {α : Type} (ctx : List α) :
    (ctx.take (ctx.length / 2 * 2)).length = ctx.length / 2 * 2 := by
  rw [List.length_take]
  omega

theorem take_even_length_eq_zero {α : Type} (ctx : List α) :
    (ctx.take (ctx.length / 2 * 2)).length = 0 ↔ ctx.length < 2 := by
  rw [take_even_length]
  omega

theorem Attach_annotated {α : Type} (sprintfV : α → String) (caller : Option String)
    (h : Heap) (p : Nat) (ctx : List α) :
    Attach sprintfV caller h (.annotated p) ctx =
      if ctx.length < 2 then some (h, .annotated p)
      else
        match h[p]? with
        | none => none
        | some e =>
          some (h.set p { e with Context := e.Context ++
            [Layer.mk (caller.getD "???") ((ctx.take (ctx.length / 2 * 2)).map sprintfV)] },
            .annotated p) := by
  by_cases hlen : ctx.length < 2
  · have h0 := (take_even_length_eq_zero ctx).mpr hlen
    simp only [Attach, if_pos hlen, if_pos h0]
    simp
  · have h0 : ¬ (ctx.take (ctx.length / 2 * 2)).length = 0 :=
      fun hz => hlen ((take_even_length_eq_zero ctx).mp hz)
    simp only [Attach, if_neg hlen, if_neg h0]
    cases caller <;> simp

theorem Attach_plain {α : Type} (sprintfV : α → String) (caller : Option String)
    (h : Heap) (msg : String) (cause : error) (ctx : List α) :
    Attach sprintfV caller h (.plain msg cause) ctx =
      if ctx.length < 2 then
        some (h ++ [Error.mk (.plain msg cause) [] []], .annotated h.length)
      else
        some (h ++ [Error.mk (.plain msg cause) []
          [Layer.mk (caller.getD "???") ((ctx.take (ctx.length / 2 * 2)).map sprintfV)]],
          .annotated h.length) := by
  by_cases hlen : ctx.length < 2
  · have h0 := (take_even_length_eq_zero ctx).mpr hlen
    simp only [Attach, if_pos hlen, if_pos h0]
    simp
  · have h0 : ¬ (ctx.take (ctx.length / 2 * 2)).length = 0 :=
      fun hz => hlen ((take_even_length_eq_zero ctx).mp hz)
    simp only [Attach, if_neg hlen, if_neg h0]
    cases caller <;> simp

theorem error.Error_mono (h : Heap) :
    ∀ (k : Nat) (err : error) (m : String), error.Error h k err = some m →
      ∀ fuel, k ≤ fuel → error.Error h fuel err = some m := by
  intro k
  induction k with
  | zero =>
    intro err m hm fuel _
    cases err with
    | nil => simp [error.Error] at hm
    | plain msg c =>
      cases fuel <;> simpa [error.Error] using hm
    | annotated p => simp [error.Error] at hm
  | succ k ih =>
    intro err m hm fuel hle
    cases err with
    | nil => simp [error.Error] at hm
    | plain msg c =>
      cases fuel <;> simpa [error.Error] using hm
    | annotated p =>
      obtain ⟨j, rfl⟩ : ∃ j, fuel = j + 1 := ⟨fuel - 1, by omega⟩
      simp only [error.Error] at hm ⊢
      cases hget : h[p]? with
      | none => rw [hget] at hm; cases hm
      | some e =>
        rw [hget] at hm
        exact ih e.Err m hm j (by omega)

theorem Format.loop_nil (M : Int) (h : Heap) (fuel level : Nat) (b : String) :
    Format.loop M h fuel level .nil b = some b := by
  cases fuel <;> simp [Format.loop]

theorem Format.loop_total (M : Int) (h : Heap) (err : error) (hfin : ChainEnds h err) :
    ∀ level : Nat, ∃ (n : Nat) (rest : String), ∀ fuel, n ≤ fuel → ∀ b,
      Format.loop M h fuel level err b = some (b ++ rest) := by
  induction hfin with
  | nil =>
    intro level
    exact ⟨0, "", fun fuel _ b => by rw [Format.loop_nil, String.append_empty]⟩
  | plain msg _ ih =>
    intro level
    obtain ⟨n, rest, hn⟩ := ih level
    refine ⟨n + 1, rest, fun fuel hle b => ?_⟩
    obtain ⟨j, rfl⟩ : ∃ j, fuel = j + 1 := ⟨fuel - 1, by omega⟩
    simp only [Format.loop]
    exact hn j (by omega) b
  | @annotated p e hget _ ih =>
    intro level
    obtain ⟨n, rest, hn⟩ := ih (level + 1)
    refine ⟨n + 1, formatStack level e "" ++ (formatContext M level e "" ++ rest),
      fun fuel hle b => ?_⟩
    obtain ⟨j, rfl⟩ : ∃ j, fuel = j + 1 := ⟨fuel - 1, by omega⟩
    simp only [Format.loop, hget]
    rw [hn j (by omega), formatContext_append, formatStack_append]
    simp only [String.append_assoc]

theorem Format.loop_bare (M : Int) (h : Heap) (err : error) (hb : Bare h err) :
    ∃ n : Nat, ∀ fuel, n ≤ fuel → ∀ (level : Nat) (b : String),
      Format.loop M h fuel level err b = some b := by
  induction hb with
  | nil => exact ⟨0, fun fuel _ level b => Format.loop_nil M h fuel level b⟩
  | plain msg _ ih =>
    obtain ⟨n, hn⟩ := ih
    refine ⟨n + 1, fun fuel hle level b => ?_⟩
    obtain ⟨j, rfl⟩ : ∃ j, fuel = j + 1 := ⟨fuel - 1, by omega⟩
    simp only [Format.loop]
    exact hn j (by omega) level b
  | @annotated p e hget hstack hctx _ ih =>
    obtain ⟨n, hn⟩ := ih
    refine ⟨n + 1, fun fuel hle level b => ?_⟩
    obtain ⟨j, rfl⟩ : ∃ j, fuel = j + 1 := ⟨fuel - 1, by omega⟩
    simp only [Format.loop, hget]
    rw [hn j (by omega)]
    simp [formatStack, formatContext, hstack, hctx, formatStack.loop, formatContext.layers]

theorem error.ErrorOutcome_of_Error (h : Heap) :
    ∀ (fuel : Nat) (err : error) (m : String), error.Error h fuel err = some m →
      error.ErrorOutcome h fuel err = .returns m := by
  intro fuel
  induction fuel with
  | zero =>
    intro err m hm
    cases err with
    | nil => simp [error.Error] at hm
    | plain msg c =>
      simp only [error.Error, Option.some.injEq] at hm
      simp [error.ErrorOutcome, hm]
    | annotated p => simp [error.Error] at hm
  | succ n ih =>
    intro err m hm
    cases err with
    | nil => simp [error.Error] at hm
    | plain msg c =>
      simp only [error.Error, Option.some.injEq] at hm
      simp [error.ErrorOutcome, hm]
    | annotated p =>
      simp only [error.Error] at hm
      simp only [error.ErrorOutcome]
      cases hget : h[p]? with
      | none => rw [hget] at hm; cases hm
      | some e =>
        rw [hget] at hm
        exact ih e.Err m hm

theorem fmtV_of_Error (h : Heap) (fuel : Nat) (err : error) (m : String)
    (hm : error.Error h fuel err = some m) : fmtV h fuel err = some m := by
  cases err with
  | nil => cases fuel <;> simp [error.Error] at hm
  | plain msg c =>
    have : msg = m := by cases fuel <;> simpa [error.Error] using hm
    simp [fmtV, this]
  | annotated p =>
    have ho := error.ErrorOutcome_of_Error h fuel _ m hm
    cases fuel with
    | zero => simp [error.Error] at hm
    | succ n =>
      simp only [error.Error] at hm
      cases hget : h[p]? with
      | none => rw [hget] at hm; cases hm
      | some e => simp only [fmtV, hget, ho]

theorem join_cons (a : String) (ss : List String) :
    String.join (a :: ss) = a ++ String.join ss := by
  apply String.ext
  simp [String.data_join]

theorem formatStack.loop_same (l : Nat) (f : Frame) :
    ∀ (n count : Nat) (b : String),
      formatStack.loop l (List.replicate n f) count (frameLine l f) b = b := by
  intro n
  induction n with
  | zero => intro count b; simp [formatStack.loop]
  | succ n ih =>
    intro count b
    simp only [List.replicate_succ, formatStack.loop, if_true]
    exact ih _ _

theorem formatStack.loop_distinct (l : Nat) :
    ∀ (fs : List Frame) (prev b : String),
      (∀ f, fs.head? = some f → prev ≠ frameLine l f) →
      (∀ i f g, fs[i]? = some f → fs[i + 1]? = some g → frameLine l f ≠ frameLine l g) →
      formatStack.loop l fs 0 prev b = b ++ String.join (fs.map (frameLine l)) := by
  intro fs
  induction fs with
  | nil => intro prev b _ _; simp [formatStack.loop, String.join]
  | cons f rest ih =>
    intro prev b hhead hcons
    have hp : ¬ prev = frameLine l f := hhead f rfl
    simp only [formatStack.loop, if_neg hp, List.map_cons, join_cons]
    rw [ih (frameLine l f) _ ?_ ?_]
    · simp [String.append_assoc]
    · intro g hg
      cases rest with
      | nil => cases hg
      | cons g1 rest1 =>
        simp only [List.head?_cons, Option.some.injEq] at hg
        subst hg
        exact hcons 0 f g1 (by simp) (by simp)
    · intro i f1 g1 hf hg
      exact hcons (i + 1) f1 g1 (by simpa using hf) (by simpa using hg)

/-! ## Trace and Attach -/

/-- C1: `Trace(nil)` returns nil and `Attach(nil, ctx...)` returns nil for
every context list, the empty one included; the heap is left as it was. -/
theorem trace_attach_nil {α : Type} (sprintfV : α → String) (caller : Option String)
    (MaxStackDepth : Int) (callers : List Frame) (h : Heap) (ctx : List α) :
    Trace MaxStackDepth callers h .nil = some (h, .nil) ∧
      Attach sprintfV caller h .nil ctx = some (h, .nil) := by
  constructor <;> simp [Trace, Attach]

/-- C2: for a non-nil `err`, plain or already a `*Error`, and every call stack
`callers`, `Trace(err)` allocates a fresh object `e` at the new address
`h.length`, leaves every existing object as it was, and returns the pointer to
`e`; that pointer differs from `err`, `e.Err` is `err` (so `Unwrap` gives
`err`), `Error()` on it gives what `err.Error()` gives, before as after the
call, and `e.Context` is empty. -/
theorem trace_wraps (MaxStackDepth : Int) (callers : List Frame) (h : Heap) (err : error)
    (hM : 0 ≤ MaxStackDepth) (hne : err ≠ .nil) (hh : Heap.closed h)
    (herr : error.closed h.length err) :
    ∃ e : Error,
      Trace MaxStackDepth callers h err = some (h ++ [e], .annotated h.length) ∧
      h[h.length]? = none ∧
      error.annotated h.length ≠ err ∧
      e.Err = err ∧
      Unwrap (h ++ [e]) (.annotated h.length) = some err ∧
      (∀ fuel, error.Error (h ++ [e]) (fuel + 1) (.annotated h.length)
        = error.Error h fuel err) ∧
      (∀ fuel, error.Error (h ++ [e]) fuel err = error.Error h fuel err) ∧
      e.Context = [] := by
  have hM1 : ¬ MaxStackDepth < 0 := not_lt.mpr hM
  have hdist : error.annotated h.length ≠ err := by
    intro heq
    rw [← heq] at herr
    exact Nat.lt_irrefl _ herr
  have key : ∀ e : Error, e.Err = err →
      (∀ fuel, error.Error (h ++ [e]) (fuel + 1) (.annotated h.length)
        = error.Error h fuel err) := by
    intro e he fuel
    simp only [error.Error, List.getElem?_concat_length, he]
    exact error.Error_append h [e] hh fuel err herr
  by_cases hpc : (List.take MaxStackDepth.toNat callers).length = 0
  · refine ⟨{ Err := err, Stack := [], Context := [] }, ?_, ?_, hdist, rfl, ?_, key _ rfl,
      fun fuel => error.Error_append h _ hh fuel err herr, rfl⟩
    · simp only [Trace, if_neg hne, if_neg hM1, if_pos hpc]
    · simp
    · simp [Unwrap]
  · refine ⟨Error.mk err (Trace.loop (List.take MaxStackDepth.toNat callers) []) [],
      ?_, ?_, hdist, rfl, ?_, key _ rfl,
      fun fuel => error.Error_append h _ hh fuel err herr, rfl⟩
    · simp only [Trace, if_neg hne, if_neg hM1, if_neg hpc]
    · simp
    · simp [Unwrap]

theorem trace_wraps_witness :
    ∃ e : Error,
      Trace 256 [⟨"main.f", "f.go", 3⟩] [⟨.plain "x" .nil, [], []⟩] (.annotated 0)
        = some ([⟨.plain "x" .nil, [], []⟩] ++ [e], .annotated 1) ∧
      e.Err = .annotated 0 ∧
      error.Error ([⟨.plain "x" .nil, [], []⟩] ++ [e]) 2 (.annotated 1) = some "x" := by
  obtain ⟨e, h1, _, _, h4, _, h6, _, _⟩ :=
    trace_wraps 256 [⟨"main.f", "f.go", 3⟩] [⟨.plain "x" .nil, [], []⟩] (.annotated 0)
      (by decide) (by decide) (by decide) (by decide)
  exact ⟨e, h1, h4, (h6 1).trans (by decide)⟩

/-- C3: `Attach` never captures a stack and never wraps twice.  For a non-nil
`err` that is not a `*Error` the result is the pointer to a fresh object (at
the new address `h.length`, the existing objects untouched) with `Err = err`
and an empty `Stack`.  For a `*Error` at an allocated address `p` the result is
that same pointer, nothing is allocated, no other object changes, and the
object at `p` keeps its `Err` and its `Stack` and has its former `Context` as
an initial segment of the new one. -/
theorem attach_no_stack_no_double_wrap {α : Type} (sprintfV : α → String)
    (caller : Option String) (h : Heap) (err : error) (ctx : List α) (hne : err ≠ .nil) :
    ((∀ p, err ≠ .annotated p) →
      ∃ e : Error, Attach sprintfV caller h err ctx = some (h ++ [e], .annotated h.length) ∧
        h[h.length]? = none ∧ e.Err = err ∧ e.Stack = []) ∧
    (∀ p e, err = .annotated p → h[p]? = some e →
      ∃ (h1 : Heap) (e1 : Error),
        Attach sprintfV caller h err ctx = some (h1, .annotated p) ∧
        h1.length = h.length ∧ h1[p]? = some e1 ∧
        e1.Err = e.Err ∧ e1.Stack = e.Stack ∧
        (∃ added, e1.Context = e.Context ++ added) ∧
        (∀ q, q ≠ p → h1[q]? = h[q]?)) := by
  constructor
  · intro hplain
    cases err with
    | nil => exact absurd rfl hne
    | annotated p => exact absurd rfl (hplain p)
    | plain msg cause =>
      rw [Attach_plain]
      by_cases hlen : ctx.length < 2
      · exact ⟨_, by rw [if_pos hlen], by simp, rfl, rfl⟩
      · exact ⟨_, by rw [if_neg hlen], by simp, rfl, rfl⟩
  · intro p e hp hget
    subst hp
    rw [Attach_annotated]
    by_cases hlen : ctx.length < 2
    · exact ⟨h, e, by rw [if_pos hlen], rfl, hget, rfl, rfl, ⟨[], by simp⟩, fun _ _ => rfl⟩
    · have hp : p < h.length := by
        rcases Nat.lt_or_ge p h.length with hlt | hge
        · exact hlt
        · rw [List.getElem?_eq_none hge] at hget
          cases hget
      refine ⟨h.set p { e with Context := e.Context ++
          [Layer.mk (caller.getD "???") ((ctx.take (ctx.length / 2 * 2)).map sprintfV)] },
        { e with Context := e.Context ++
          [Layer.mk (caller.getD "???") ((ctx.take (ctx.length / 2 * 2)).map sprintfV)] },
        by rw [if_neg hlen, hget], by simp, ?_, rfl, rfl, ⟨_, rfl⟩, ?_⟩
      · simp [List.getElem?_set, hp]
      · intro q hq
        simp [List.getElem?_set, Ne.symm hq]

theorem attach_no_stack_no_double_wrap_witness :
    (∃ e : Error,
      Attach (fun n : Nat => toString n) (some "main.f") [] (.plain "x" .nil) [1, 2]
        = some ([] ++ [e], .annotated 0) ∧ e.Stack = []) ∧
    (∃ (h1 : Heap) (e1 : Error),
      Attach (fun n : Nat => toString n) (some "main.f")
        [⟨.plain "x" .nil, [⟨"main.g", "g.go", 7⟩], []⟩] (.annotated 0) [1, 2]
        = some (h1, .annotated 0) ∧ h1.length = 1 ∧ h1[0]? = some e1 ∧
        e1.Stack = [⟨"main.g", "g.go", 7⟩]) := by
  constructor
  · obtain ⟨e, h1, _, _, h4⟩ :=
      (attach_no_stack_no_double_wrap (fun n : Nat => toString n) (some "main.f") []
        (.plain "x" .nil) [1, 2] (by decide)).1 (fun p hp => error.noConfusion hp)
    exact ⟨e, h1, h4⟩
  · obtain ⟨h1, e1, a1, a2, a3, _, a5, _, _⟩ :=
      (attach_no_stack_no_double_wrap (fun n : Nat => toString n) (some "main.f")
        [⟨.plain "x" .nil, [⟨"main.g", "g.go", 7⟩], []⟩] (.annotated 0) [1, 2]
        (by decide)).2 0 _ rfl rfl
    exact ⟨h1, e1, a1, a2, a3, a5⟩

/-- C4: `Attach(err, ctx...)` gives the same result (returned error and heap,
hence the same `Context`) as `Attach` with `ctx` cut to its first
`2 * (len(ctx) / 2)` elements; with zero or one element no `Layer` is appended:
a `*Error` is returned with the heap unchanged, and a plain error is wrapped in
a fresh object whose `Context` is empty. -/
theorem attach_truncates {α : Type} (sprintfV : α → String) (caller : Option String)
    (h : Heap) (err : error) (ctx : List α) :
    Attach sprintfV caller h err ctx
      = Attach sprintfV caller h err (ctx.take (2 * (ctx.length / 2))) ∧
    (ctx.length ≤ 1 →
      Attach sprintfV caller h err ctx =
        match err with
        | .nil => some (h, .nil)
        | .annotated p => some (h, .annotated p)
        | .plain msg cause =>
          some (h ++ [Error.mk (.plain msg cause) [] []], .annotated h.length)) := by
  have hk : (ctx.take (2 * (ctx.length / 2))).length = 2 * (ctx.length / 2) := by
    rw [List.length_take]; omega
  have hk2 : (ctx.take (2 * (ctx.length / 2))).length / 2 * 2 = 2 * (ctx.length / 2) := by
    rw [hk]; omega
  have hk3 : ctx.length / 2 * 2 = 2 * (ctx.length / 2) := by omega
  have hiff : (ctx.take (2 * (ctx.length / 2))).length < 2 ↔ ctx.length < 2 := by
    rw [hk]; omega
  constructor
  · cases err with
    | nil => simp [Attach]
    | plain msg cause =>
      rw [Attach_plain, Attach_plain, hk2, hk3, List.take_take, Nat.min_self]
      by_cases hlen : ctx.length < 2
      · rw [if_pos hlen, if_pos (hiff.mpr hlen)]
      · rw [if_neg hlen, if_neg (fun hc => hlen (hiff.mp hc))]
    | annotated p =>
      rw [Attach_annotated, Attach_annotated, hk2, hk3, List.take_take, Nat.min_self]
      by_cases hlen : ctx.length < 2
      · rw [if_pos hlen, if_pos (hiff.mpr hlen)]
      · rw [if_neg hlen, if_neg (fun hc => hlen (hiff.mp hc))]
  · intro hle
    have hlen : ctx.length < 2 := by omega
    cases err with
    | nil => simp [Attach]
    | plain msg cause => rw [Attach_plain, if_pos hlen]
    | annotated p => rw [Attach_annotated, if_pos hlen]

theorem attach_truncates_witness :
    Attach (fun n : Nat => toString n) (some "main.f") [⟨.plain "x" .nil, [], []⟩]
      (.annotated 0) [5] = some ([⟨.plain "x" .nil, [], []⟩], .annotated 0) :=
  (attach_truncates (fun n : Nat => toString n) (some "main.f") [⟨.plain "x" .nil, [], []⟩]
    (.annotated 0) [5]).2 (by decide)

/-- C5: for a non-nil `err` (when a `*Error`, an allocated one) and a `ctx` of
at least two elements, `Attach` appends exactly one `Layer` to the `Context`
the error had before (none for a fresh wrapper); its `Values` has length
`2 * (len(ctx) / 2)` and `Values[i]` is the verbose rendering of `ctx[i]` for
every `i` below that length.  Hence in every heap built by `Trace` and `Attach`
alone, every `Layer` of every object has a `Values` of even, non-zero
length. -/
theorem attach_layer_even {α : Type} (sprintfV : α → String) :
    (∀ (caller : Option String) (h : Heap) (err : error) (ctx : List α),
      err ≠ .nil → (∀ p, err = .annotated p → p < h.length) → 2 ≤ ctx.length →
      ∃ (h1 : Heap) (p : Nat) (l : Layer),
        Attach sprintfV caller h err ctx = some (h1, .annotated p) ∧
        (h1[p]?).map (fun e => e.Context)
          = some (((h[p]?).map (fun e => e.Context)).getD [] ++ [l]) ∧
        l.Values.length = 2 * (ctx.length / 2) ∧
        (∀ i, i < 2 * (ctx.length / 2) → l.Values[i]? = (ctx[i]?).map sprintfV)) ∧
    (∀ h : Heap, Built sprintfV h →
      ∀ e ∈ h, ∀ l ∈ e.Context, l.Values.length % 2 = 0 ∧ l.Values.length ≠ 0) := by
  constructor
  · intro caller h err ctx hne hvalid hlen
    have hlen2 : ¬ ctx.length < 2 := by omega
    have hvals : ∀ i, i < 2 * (ctx.length / 2) →
        ((ctx.take (ctx.length / 2 * 2)).map sprintfV)[i]? = (ctx[i]?).map sprintfV := by
      intro i hi
      rw [List.getElem?_map, List.getElem?_take_of_lt (by omega)]
    have hvlen : ((ctx.take (ctx.length / 2 * 2)).map sprintfV).length
        = 2 * (ctx.length / 2) := by
      rw [List.length_map, take_even_length]; omega
    cases err with
    | nil => exact absurd rfl hne
    | plain msg cause =>
      refine ⟨h ++ [Error.mk (.plain msg cause) []
          [Layer.mk (caller.getD "???") ((ctx.take (ctx.length / 2 * 2)).map sprintfV)]],
        h.length, Layer.mk (caller.getD "???")
        ((ctx.take (ctx.length / 2 * 2)).map sprintfV), ?_, ?_, hvlen, hvals⟩
      · rw [Attach_plain, if_neg hlen2]
      · simp
    | annotated p =>
      have hp : p < h.length := hvalid p rfl
      have hget : h[p]? = some h[p] := List.getElem?_eq_getElem hp
      refine ⟨h.set p { h[p] with Context := h[p].Context ++
          [Layer.mk (caller.getD "???") ((ctx.take (ctx.length / 2 * 2)).map sprintfV)] },
        p, Layer.mk (caller.getD "???")
        ((ctx.take (ctx.length / 2 * 2)).map sprintfV), ?_, ?_, hvlen, hvals⟩
      · rw [Attach_annotated, if_neg hlen2, hget]
      · simp [List.getElem?_set, hp]
  · intro h hb
    induction hb with
    | empty => intro e he; cases he
    | @trace h h1 r M callers err _ htr ih =>
      intro e he
      by_cases hnil : err = .nil
      · simp only [Trace, if_pos hnil, Option.some.injEq, Prod.mk.injEq] at htr
        rw [← htr.1] at he
        exact ih e he
      · by_cases hM : M < 0
        · simp [Trace, hnil, hM] at htr
        · simp only [Trace, if_neg hnil, if_neg hM] at htr
          split at htr <;>
          · simp only [Option.some.injEq, Prod.mk.injEq] at htr
            rw [← htr.1] at he
            rcases List.mem_append.mp he with hold | hnew
            · exact ih e hold
            · rw [List.mem_singleton] at hnew
              subst hnew
              intro l hl
              cases hl
    | @attach h h1 r caller err ctx _ hat ih =>
      have hnew : ∀ l : Layer,
          l = Layer.mk (caller.getD "???") ((ctx.take (ctx.length / 2 * 2)).map sprintfV) →
          ¬ ctx.length < 2 → l.Values.length % 2 = 0 ∧ l.Values.length ≠ 0 := by
        intro l hl hlen
        subst hl
        simp only [List.length_map, take_even_length]
        omega
      intro e he
      cases err with
      | nil =>
        simp only [Attach, if_true, Option.some.injEq, Prod.mk.injEq] at hat
        rw [← hat.1] at he
        exact ih e he
      | plain msg cause =>
        rw [Attach_plain] at hat
        by_cases hlen : ctx.length < 2
        · rw [if_pos hlen] at hat
          simp only [Option.some.injEq, Prod.mk.injEq] at hat
          rw [← hat.1] at he
          rcases List.mem_append.mp he with hold | hnw
          · exact ih e hold
          · rw [List.mem_singleton] at hnw
            subst hnw
            intro l hl
            cases hl
        · rw [if_neg hlen] at hat
          simp only [Option.some.injEq, Prod.mk.injEq] at hat
          rw [← hat.1] at he
          rcases List.mem_append.mp he with hold | hnw
          · exact ih e hold
          · rw [List.mem_singleton] at hnw
            subst hnw
            intro l hl
            rw [List.mem_singleton] at hl
            exact hnew l hl hlen
      | annotated p =>
        rw [Attach_annotated] at hat
        by_cases hlen : ctx.length < 2
        · rw [if_pos hlen] at hat
          simp only [Option.some.injEq, Prod.mk.injEq] at hat
          rw [← hat.1] at he
          exact ih e he
        · rw [if_neg hlen] at hat
          cases hget : h[p]? with
          | none => rw [hget] at hat; cases hat
          | some e0 =>
            rw [hget] at hat
            simp only [Option.some.injEq, Prod.mk.injEq] at hat
            rw [← hat.1] at he
            rcases List.mem_or_eq_of_mem_set he with hold | hnw
            · exact ih e hold
            · subst hnw
              intro l hl
              rcases List.mem_append.mp hl with hl1 | hl2
              · exact ih e0 (List.getElem?_mem hget) l hl1
              · rw [List.mem_singleton] at hl2
                exact hnew l hl2 hlen

theorem attach_layer_even_witness :
    ∃ (h1 : Heap) (p : Nat) (l : Layer),
      Attach (fun n : Nat => toString n) (some "main.f") [] (.plain "x" .nil) [1, 2, 3]
        = some (h1, .annotated p) ∧
      l.Values.length = 2 ∧ l.Values[1]? = some "2" := by
  obtain ⟨h1, p, l, a, _, c, d⟩ :=
    (attach_layer_even (fun n : Nat => toString n)).1 (some "main.f") []
      (.plain "x" .nil) [1, 2, 3] (by decide) (fun p hp => error.noConfusion hp) (by decide)
  exact ⟨h1, p, l, a, c.trans (by decide), (d 1 (by decide)).trans (by decide)⟩

/-- C6: for a `*Error` at an allocated address `p` and a `ctx` of at least two
elements, `Attach` sets the object's `Context` to the previous `Context`
followed by exactly one new `Layer` (the caller's name and the rendered
pairs); two successive calls with `ctx1` then `ctx2` leave the previous
`Context` followed by the two layers, in call order and not merged. -/
theorem attach_appends_one_layer {α : Type} (sprintfV : α → String) (h : Heap) (p : Nat)
    (e : Error) (caller1 caller2 : Option String) (ctx1 ctx2 : List α)
    (hget : h[p]? = some e) (hlen1 : 2 ≤ ctx1.length) (hlen2 : 2 ≤ ctx2.length) :
    Attach sprintfV caller1 h (.annotated p) ctx1
      = some (h.set p { e with Context := e.Context ++
          [Layer.mk (caller1.getD "???")
            ((ctx1.take (ctx1.length / 2 * 2)).map sprintfV)] }, .annotated p) ∧
    (Attach sprintfV caller1 h (.annotated p) ctx1).bind
        (fun r => Attach sprintfV caller2 r.1 r.2 ctx2)
      = some (h.set p { e with Context := e.Context ++
          [Layer.mk (caller1.getD "???")
            ((ctx1.take (ctx1.length / 2 * 2)).map sprintfV),
           Layer.mk (caller2.getD "???")
            ((ctx2.take (ctx2.length / 2 * 2)).map sprintfV)] }, .annotated p) := by
  have hp : p < h.length := by
    rcases Nat.lt_or_ge p h.length with hlt | hge
    · exact hlt
    · rw [List.getElem?_eq_none hge] at hget
      cases hget
  have hfirst : Attach sprintfV caller1 h (.annotated p) ctx1
      = some (h.set p { e with Context := e.Context ++
          [Layer.mk (caller1.getD "???")
            ((ctx1.take (ctx1.length / 2 * 2)).map sprintfV)] }, .annotated p) := by
    rw [Attach_annotated, if_neg (by omega), hget]
  refine ⟨hfirst, ?_⟩
  rw [hfirst, Option.some_bind, Attach_annotated, if_neg (by omega)]
  simp [List.getElem?_set, hp, List.set_set]

theorem attach_appends_one_layer_witness :
    (Attach (fun s : String => s) (some "main.f") [⟨.plain "x" .nil, [], []⟩]
        (.annotated 0) ["op", "write"]).bind
      (fun r => Attach (fun s : String => s) (some "main.g") r.1 r.2 ["retries", "3"])
    = some ([⟨.plain "x" .nil, [],
        [⟨"main.f", ["op", "write"]⟩, ⟨"main.g", ["retries", "3"]⟩]⟩], .annotated 0) :=
  (attach_appends_one_layer (fun s : String => s) [⟨.plain "x" .nil, [], []⟩] 0
    ⟨.plain "x" .nil, [], []⟩ (some "main.f") (some "main.g") ["op", "write"] ["retries", "3"]
    rfl (by decide) (by decide)).2

/-! ## Format -/

/-- C7: for a non-nil `err` whose chain of causes is finite and whose
`Error()` returns `m`, `Format(err)` returns, given enough fuel, a string that
starts with `error: ` followed at once by `m`, whatever stacks and context
layers the chain holds. -/
theorem format_starts_with_header (MaxColumnWidth : Int) (h : Heap) (err : error)
    (m : String) (k : Nat) (hne : err ≠ .nil) (hfin : ChainEnds h err)
    (hm : error.Error h k err = some m) :
    ∃ (n : Nat) (rest : String), ∀ fuel, n ≤ fuel →
      Format MaxColumnWidth h fuel err = some ("error: " ++ m ++ rest) := by
  have _ := hne
  obtain ⟨n, rest, hn⟩ := Format.loop_total MaxColumnWidth h err hfin 1
  refine ⟨Nat.max n k, rest, fun fuel hle => ?_⟩
  have hk : k ≤ fuel := Nat.le_trans (Nat.le_max_right n k) hle
  have hn1 : n ≤ fuel := Nat.le_trans (Nat.le_max_left n k) hle
  simp only [Format, fmtV_of_Error h fuel err m (error.Error_mono h k err m hm fuel hk)]
  exact hn fuel hn1 _

theorem format_starts_with_header_witness :
    ∃ (n : Nat) (rest : String), ∀ fuel, n ≤ fuel →
      Format 25 [⟨.plain "disk full" .nil, [⟨"main.B", "file.go", 10⟩],
          [⟨"main.f", ["op", "write"]⟩]⟩] fuel (.annotated 0)
        = some ("error: " ++ "disk full" ++ rest) :=
  format_starts_with_header 25 [⟨.plain "disk full" .nil, [⟨"main.B", "file.go", 10⟩],
      [⟨"main.f", ["op", "write"]⟩]⟩] (.annotated 0) "disk full" 1 (by decide)
    (ChainEnds.annotated rfl (ChainEnds.plain _ ChainEnds.nil)) rfl

/-- C8, as stated, fails: `Attach` without context on a plain error that wraps
a traced error yields a `*Error` with an empty `Stack` and an empty `Context`,
yet `Format` goes on to render the stack of the traced error below it. -/
theorem format_empty_wrapper_counterexample :
    Attach (fun s : String => s) (some "main.g")
        [⟨.plain "x" .nil, [⟨"main.f", "a.go", 1⟩], []⟩]
        (.plain "ctx: x" (.annotated 0)) []
      = some ([⟨.plain "x" .nil, [⟨"main.f", "a.go", 1⟩], []⟩,
          ⟨.plain "ctx: x" (.annotated 0), [], []⟩], .annotated 1) ∧
    error.Error [⟨.plain "x" .nil, [⟨"main.f", "a.go", 1⟩], []⟩,
        ⟨.plain "ctx: x" (.annotated 0), [], []⟩] 4 (.annotated 1) = some "ctx: x" ∧
    Format 25 [⟨.plain "x" .nil, [⟨"main.f", "a.go", 1⟩], []⟩,
        ⟨.plain "ctx: x" (.annotated 0), [], []⟩] 4 (.annotated 1)
      = some "error: ctx: x\n\t\tfrom main.f() at a.go:1" ∧
    Format 25 [⟨.plain "x" .nil, [⟨"main.f", "a.go", 1⟩], []⟩,
        ⟨.plain "ctx: x" (.annotated 0), [], []⟩] 4 (.annotated 1)
      ≠ some ("error: " ++ "ctx: x") := by
  decide

/-- C8, amended: for a `*Error` whose `Stack` and `Context` are empty, and
below which every `*Error` of the finite chain of causes has an empty `Stack`
and an empty `Context` too, `Format` returns, given enough fuel, exactly the
header `error: ` followed by the text of `Error()`. -/
theorem format_bare_is_header (MaxColumnWidth : Int) (h : Heap) (p : Nat) (m : String)
    (k : Nat) (hb : Bare h (.annotated p)) (hm : error.Error h k (.annotated p) = some m) :
    ∃ n : Nat, ∀ fuel, n ≤ fuel →
      Format MaxColumnWidth h fuel (.annotated p) = some ("error: " ++ m) := by
  obtain ⟨n, hn⟩ := Format.loop_bare MaxColumnWidth h _ hb
  refine ⟨Nat.max n k, fun fuel hle => ?_⟩
  have hk : k ≤ fuel := Nat.le_trans (Nat.le_max_right n k) hle
  have hn1 : n ≤ fuel := Nat.le_trans (Nat.le_max_left n k) hle
  simp only [Format, fmtV_of_Error h fuel _ m (error.Error_mono h k _ m hm fuel hk)]
  exact hn fuel hn1 _ _

theorem format_bare_is_header_witness :
    ∃ n : Nat, ∀ fuel, n ≤ fuel →
      Format 25 [⟨.plain "x" .nil, [], []⟩, ⟨.plain "ctx: x" (.annotated 0), [], []⟩]
        fuel (.annotated 1) = some ("error: " ++ "ctx: x") :=
  format_bare_is_header 25 [⟨.plain "x" .nil, [], []⟩, ⟨.plain "ctx: x" (.annotated 0), [], []⟩]
    1 "ctx: x" 1
    (Bare.annotated rfl rfl rfl
      (Bare.plain _ (Bare.annotated rfl rfl rfl (Bare.plain _ Bare.nil)))) rfl

/-- C9: the code departs from the claim for a run that ends the stack.  A
`Stack` that is one run of `n + 1` equal frames is rendered as the frame line
alone, with no summary line, since `formatStack` writes a pending count only
when a different line follows; so `[f, f, g]` gets its summary `... * 2` and
`[f, f]` gets none. -/
theorem formatStack_trailing_run_no_summary :
    (∀ (l : Nat) (f : Frame) (n : Nat) (err : error) (ctx : List Layer) (b : String),
      formatStack l ⟨err, List.replicate (n + 1) f, ctx⟩ b = b ++ frameLine l f) ∧
    formatStack 1 ⟨.nil, [⟨"main.f", "x.go", 1⟩, ⟨"main.f", "x.go", 1⟩,
        ⟨"main.g", "x.go", 2⟩], []⟩ ""
      = "\n\tfrom main.f() at x.go:1\n\t     ... * 2\n\tfrom main.g() at x.go:2" ∧
    formatStack 1 ⟨.nil, [⟨"main.f", "x.go", 1⟩, ⟨"main.f", "x.go", 1⟩], []⟩ ""
      = "\n\tfrom main.f() at x.go:1" ∧
    formatStack 1 ⟨.nil, [⟨"main.f", "x.go", 1⟩, ⟨"main.f", "x.go", 1⟩], []⟩ ""
      ≠ "\n\tfrom main.f() at x.go:1" ++ ("\n" ++ tabs 1 ++ "     ... * " ++ toString 2) := by
  refine ⟨?_, by decide, by decide, by decide⟩
  intro l f n err ctx b
  have hp : ¬ "" = frameLine l f := fun hEq => frameLine_ne_empty l f hEq.symm
  simp only [formatStack, List.replicate_succ, formatStack.loop, if_neg hp]
  rw [formatStack.loop_same]
  simp

/-- C10: when no two consecutive frames of the `Stack` render to the same
line, `formatStack` at level `l` appends exactly one line per frame, in `Stack`
order, each a newline, `l` tabs, `from `, the base name of `Func`, `() at `,
`File`, a colon and the decimal `Line`, and no summary line; an empty `Stack`
appends nothing.  The `*Error` that wraps `errors.New("disk full")` with the
stack `[B file.go:10, A file.go:20]` and no context formats to the header and
the two frame lines. -/
theorem formatStack_distinct_lines :
    (∀ (l : Nat) (e : Error) (b : String),
      (∀ i f g, e.Stack[i]? = some f → e.Stack[i + 1]? = some g →
        frameLine l f ≠ frameLine l g) →
      formatStack l e b = b ++ String.join (e.Stack.map (fun f =>
        "\n" ++ tabs l ++ "from " ++ path.Base f.Func ++ "() at " ++ f.File ++ ":"
          ++ toString f.Line))) ∧
    (∀ (l : Nat) (e : Error) (b : String), e.Stack = [] → formatStack l e b = b) ∧
    (∀ (MaxColumnWidth : Int) (fuel : Nat), 2 ≤ fuel →
      Format MaxColumnWidth
        [⟨.plain "disk full" .nil, [⟨"B", "file.go", 10⟩, ⟨"A", "file.go", 20⟩], []⟩]
        fuel (.annotated 0)
        = some "error: disk full\n\tfrom B() at file.go:10\n\tfrom A() at file.go:20") := by
  refine ⟨?_, ?_, ?_⟩
  · intro l e b hcons
    exact formatStack.loop_distinct l e.Stack "" b
      (fun f _ hEq => frameLine_ne_empty l f hEq.symm) hcons
  · intro l e b hs
    simp [formatStack, hs, formatStack.loop]
  · intro M fuel hle
    obtain ⟨j, rfl⟩ : ∃ j, fuel = j + 2 := ⟨fuel - 2, by omega⟩
    simp only [Format, fmtV, error.ErrorOutcome, Format.loop, List.getElem?_cons_zero,
      Format.loop_nil, formatContext, formatContext.layers]
    exact congrArg some (by decide)

theorem formatStack_distinct_lines_witness :
    formatStack 2 ⟨.nil, [⟨"pkg/a.B", "file.go", 10⟩, ⟨"pkg/a.B", "file.go", 11⟩], []⟩ "error: x"
      = "error: x" ++ String.join
        ["\n\t\tfrom a.B() at file.go:10", "\n\t\tfrom a.B() at file.go:11"] ∧
    Format 25 [⟨.plain "disk full" .nil, [⟨"B", "file.go", 10⟩, ⟨"A", "file.go", 20⟩], []⟩]
        2 (.annotated 0)
      = some "error: disk full\n\tfrom B() at file.go:10\n\tfrom A() at file.go:20" := by
  refine ⟨?_, formatStack_distinct_lines.2.2 25 2 (by decide)⟩
  refine (formatStack_distinct_lines.1 2
    ⟨.nil, [⟨"pkg/a.B", "file.go", 10⟩, ⟨"pkg/a.B", "file.go", 11⟩], []⟩ "error: x" ?_).trans
    (by decide)
  intro i f g hf hg
  match i, hf, hg with
  | 0, hf, hg =>
    simp only [List.getElem?_cons_zero, List.getElem?_cons_succ, Option.some.injEq] at hf hg
    subst hf; subst hg
    decide
  | 1, hf, hg => simp at hg
  | (i + 2), hf, hg => simp at hf

/-! ## Trace: the captured stack -/

theorem Trace.loop_eq (f : Frame) :
    ∀ (rest stack : List Frame), Trace.loop (f :: rest) stack = stack ++ f :: rest := by
  intro rest
  induction rest generalizing f with
  | nil => intro stack; simp [Trace.loop]
  | cons g rest ih =>
    intro stack
    simp only [Trace.loop]
    rw [ih g (stack ++ [f])]
    simp

/-- C17: for a non-nil `err`, a setting `MaxStackDepth >= 0` and every call
stack `callers`, however deep, the `Stack` of `Trace(err)` is the first
`MaxStackDepth` frames of `callers` (all of them when there are fewer), in the
order the runtime reports them, innermost first from the caller of `Trace`; so
it has at most `MaxStackDepth` frames, at most 256 with the default, and it is
empty when the runtime reports no frame. -/
theorem trace_stack_bounded (MaxStackDepth : Int) (callers : List Frame) (h : Heap)
    (err : error) (hM : 0 ≤ MaxStackDepth) (hne : err ≠ .nil) :
    ∃ e : Error,
      Trace MaxStackDepth callers h err = some (h ++ [e], .annotated h.length) ∧
      e.Stack = callers.take MaxStackDepth.toNat ∧
      (e.Stack.length : Int) ≤ MaxStackDepth ∧
      (MaxStackDepth = 256 → e.Stack.length ≤ 256) ∧
      (callers = [] → e.Stack = []) := by
  have hM1 : ¬ MaxStackDepth < 0 := not_lt.mpr hM
  have hlen : ((callers.take MaxStackDepth.toNat).length : Int) ≤ MaxStackDepth := by
    rw [List.length_take]
    omega
  have hstack : ∀ e : Error, e.Stack = callers.take MaxStackDepth.toNat →
      (e.Stack.length : Int) ≤ MaxStackDepth ∧
      (MaxStackDepth = 256 → e.Stack.length ≤ 256) ∧ (callers = [] → e.Stack = []) := by
    intro e he
    rw [he]
    refine ⟨hlen, ?_, ?_⟩
    · intro h256
      have hle : ((callers.take MaxStackDepth.toNat).length : Int) ≤ 256 := h256 ▸ hlen
      omega
    · intro hc
      rw [hc]
      simp
  by_cases hpc : (List.take MaxStackDepth.toNat callers).length = 0
  · have hnil : List.take MaxStackDepth.toNat callers = [] := List.length_eq_zero.mp hpc
    refine ⟨Error.mk err [] [], ?_, hnil.symm, hstack _ hnil.symm⟩
    simp only [Trace, if_neg hne, if_neg hM1, if_pos hpc]
  · have hloop : Trace.loop (List.take MaxStackDepth.toNat callers) []
        = List.take MaxStackDepth.toNat callers := by
      cases hc : List.take MaxStackDepth.toNat callers with
      | nil => rw [hc] at hpc; exact absurd rfl hpc
      | cons f rest => rw [Trace.loop_eq]; simp
    refine ⟨Error.mk err (Trace.loop (List.take MaxStackDepth.toNat callers) []) [],
      ?_, hloop, hstack _ hloop⟩
    simp only [Trace, if_neg hne, if_neg hM1, if_neg hpc]

theorem trace_stack_bounded_witness :
    ∃ e : Error,
      Trace 2 [⟨"main.c", "c.go", 3⟩, ⟨"main.b", "b.go", 2⟩, ⟨"main.a", "a.go", 1⟩] []
        (.plain "x" .nil) = some ([] ++ [e], .annotated 0) ∧
      e.Stack = [⟨"main.c", "c.go", 3⟩, ⟨"main.b", "b.go", 2⟩] := by
  obtain ⟨e, h1, h2, _⟩ :=
    trace_stack_bounded 2 [⟨"main.c", "c.go", 3⟩, ⟨"main.b", "b.go", 2⟩, ⟨"main.a", "a.go", 1⟩]
      [] (.plain "x" .nil) (by decide) (by decide)
  exact ⟨e, h1, h2.trans (by decide)⟩

/-! ## Format of the nil error -/

/-- C19: `Format(nil)` does not fail: for every setting, heap and amount of
fuel it returns exactly `error: <nil>`, the header with the placeholder of the
nil value and nothing after it, since the loop over the chain is not
entered. -/
theorem format_nil (MaxColumnWidth : Int) (h : Heap) (fuel : Nat) :
    Format MaxColumnWidth h fuel .nil = some "error: <nil>" := by
  simp only [Format, fmtV, Format.loop_nil]
  rfl

/-! ## The column widths of the Context section -/

theorem formatContext.widthValues_spec (M : Int) :
    ∀ (vs : List String) (i : Nat) (w : Int × Int),
      (w.1 ≤ (formatContext.widthValues M vs i w).1 ∧
        w.2 ≤ (formatContext.widthValues M vs i w).2) ∧
      (∀ j item, vs[j]? = some item → (item.utf8ByteSize : Int) ≤ M →
        ((i + j) % 2 = 0 → (item.utf8ByteSize : Int) ≤ (formatContext.widthValues M vs i w).1) ∧
        ((i + j) % 2 = 1 → (item.utf8ByteSize : Int) ≤ (formatContext.widthValues M vs i w).2)) ∧
      ((formatContext.widthValues M vs i w).1 = w.1 ∨
        ∃ j item, vs[j]? = some item ∧ (i + j) % 2 = 0 ∧ (item.utf8ByteSize : Int) ≤ M ∧
          (formatContext.widthValues M vs i w).1 = item.utf8ByteSize) ∧
      ((formatContext.widthValues M vs i w).2 = w.2 ∨
        ∃ j item, vs[j]? = some item ∧ (i + j) % 2 = 1 ∧ (item.utf8ByteSize : Int) ≤ M ∧
          (formatContext.widthValues M vs i w).2 = item.utf8ByteSize) := by
  intro vs
  induction vs with
  | nil =>
    intro i w
    simp [formatContext.widthValues]
  | cons item rest ih =>
    intro i w
    have hstep : ∃ w1 : Int × Int,
        formatContext.widthValues M (item :: rest) i w
          = formatContext.widthValues M rest (i + 1) w1 ∧
        w.1 ≤ w1.1 ∧ w.2 ≤ w1.2 ∧
        ((item.utf8ByteSize : Int) ≤ M → (i % 2 = 0 → (item.utf8ByteSize : Int) ≤ w1.1) ∧
          (i % 2 = 1 → (item.utf8ByteSize : Int) ≤ w1.2)) ∧
        (w1.1 = w.1 ∨ (i % 2 = 0 ∧ (item.utf8ByteSize : Int) ≤ M ∧ w1.1 = item.utf8ByteSize)) ∧
        (w1.2 = w.2 ∨ (i % 2 = 1 ∧ (item.utf8ByteSize : Int) ≤ M ∧ w1.2 = item.utf8ByteSize)) := by
      by_cases hM : (item.utf8ByteSize : Int) ≤ M
      · by_cases hi : i % 2 = 0
        · by_cases hgt : w.1 > (item.utf8ByteSize : Int)
          · refine ⟨(w.1, w.2), by simp [formatContext.widthValues, hM, hi, max, hgt], ?_⟩
            exact ⟨le_refl _, le_refl _, fun _ => ⟨fun _ => by show _ ≤ w.1; omega,
              fun _ => by omega⟩, Or.inl rfl, Or.inl rfl⟩
          · refine ⟨((item.utf8ByteSize : Int), w.2),
              by simp [formatContext.widthValues, hM, hi, max, hgt], ?_⟩
            exact ⟨by show w.1 ≤ _; omega, le_refl _, fun _ => ⟨fun _ => le_refl _,
              fun _ => by omega⟩, Or.inr ⟨hi, hM, rfl⟩, Or.inl rfl⟩
        · by_cases hgt : w.2 > (item.utf8ByteSize : Int)
          · refine ⟨(w.1, w.2), by simp [formatContext.widthValues, hM, hi, max, hgt], ?_⟩
            exact ⟨le_refl _, le_refl _, fun _ => ⟨fun _ => by omega,
              fun _ => by show _ ≤ w.2; omega⟩, Or.inl rfl, Or.inl rfl⟩
          · refine ⟨(w.1, (item.utf8ByteSize : Int)),
              by simp [formatContext.widthValues, hM, hi, max, hgt], ?_⟩
            exact ⟨le_refl _, by show w.2 ≤ _; omega, fun _ => ⟨fun _ => by omega,
              fun _ => le_refl _⟩, Or.inl rfl, Or.inr ⟨by omega, hM, rfl⟩⟩
      · refine ⟨w, by simp [formatContext.widthValues, hM], ?_⟩
        exact ⟨le_refl _, le_refl _, fun h => absurd h hM, Or.inl rfl, Or.inl rfl⟩
    obtain ⟨w1, heq, h1, h2, h3, h4, h5⟩ := hstep
    rw [heq]
    obtain ⟨⟨a1, a2⟩, a3, a4, a5⟩ := ih (i + 1) w1
    refine ⟨⟨by omega, by omega⟩, ?_, ?_, ?_⟩
    · intro j it hj hM
      cases j with
      | zero =>
        simp only [List.getElem?_cons_zero, Option.some.injEq] at hj
        subst hj
        have := h3 hM
        constructor
        · intro hp; have := this.1 (by omega); omega
        · intro hp; have := this.2 (by omega); omega
      | succ j =>
        simp only [List.getElem?_cons_succ] at hj
        have := a3 j it hj hM
        constructor
        · intro hp; exact this.1 (by omega)
        · intro hp; exact this.2 (by omega)
    · rcases a4 with a4 | ⟨j, it, hj, hp, hM, hv⟩
      · rcases h4 with h4 | ⟨hp, hM, hv⟩
        · left; omega
        · right; exact ⟨0, item, by simp, by omega, hM, by omega⟩
      · right; exact ⟨j + 1, it, by simpa using hj, by omega, hM, hv⟩
    · rcases a5 with a5 | ⟨j, it, hj, hp, hM, hv⟩
      · rcases h5 with h5 | ⟨hp, hM, hv⟩
        · left; omega
        · right; exact ⟨0, item, by simp, by omega, hM, by omega⟩
      · right; exact ⟨j + 1, it, by simpa using hj, by omega, hM, hv⟩

theorem formatContext.maxWidth_spec (M : Int) :
    ∀ (ctx : List Layer) (w : Int × Int),
      (w.1 ≤ (formatContext.maxWidth M ctx w).1 ∧ w.2 ≤ (formatContext.maxWidth M ctx w).2) ∧
      (∀ L ∈ ctx, ∀ j item, L.Values[j]? = some item → (item.utf8ByteSize : Int) ≤ M →
        (j % 2 = 0 → (item.utf8ByteSize : Int) ≤ (formatContext.maxWidth M ctx w).1) ∧
        (j % 2 = 1 → (item.utf8ByteSize : Int) ≤ (formatContext.maxWidth M ctx w).2)) ∧
      ((formatContext.maxWidth M ctx w).1 = w.1 ∨
        ∃ L ∈ ctx, ∃ j item, L.Values[j]? = some item ∧ j % 2 = 0 ∧
          (item.utf8ByteSize : Int) ≤ M ∧
          (formatContext.maxWidth M ctx w).1 = item.utf8ByteSize) ∧
      ((formatContext.maxWidth M ctx w).2 = w.2 ∨
        ∃ L ∈ ctx, ∃ j item, L.Values[j]? = some item ∧ j % 2 = 1 ∧
          (item.utf8ByteSize : Int) ≤ M ∧
          (formatContext.maxWidth M ctx w).2 = item.utf8ByteSize) := by
  intro ctx
  induction ctx with
  | nil =>
    intro w
    simp [formatContext.maxWidth]
  | cons L rest ih =>
    intro w
    simp only [formatContext.maxWidth]
    obtain ⟨⟨b1, b2⟩, b3, b4, b5⟩ := formatContext.widthValues_spec M L.Values 0 w
    obtain ⟨⟨a1, a2⟩, a3, a4, a5⟩ :=
      ih (formatContext.widthValues M L.Values 0 w)
    refine ⟨⟨by omega, by omega⟩, ?_, ?_, ?_⟩
    · intro L1 hL1 j it hj hM
      rcases List.mem_cons.mp hL1 with hEq | hmem
      · subst hEq
        have := b3 j it hj hM
        constructor
        · intro hp; have := this.1 (by omega); omega
        · intro hp; have := this.2 (by omega); omega
      · exact a3 L1 hmem j it hj hM
    · rcases a4 with a4 | ⟨L1, hL1, j, it, hj, hp, hM, hv⟩
      · rcases b4 with b4 | ⟨j, it, hj, hp, hM, hv⟩
        · left; omega
        · right
          exact ⟨L, List.mem_cons_self _ _, j, it, hj, by omega, hM, by omega⟩
      · right
        exact ⟨L1, List.mem_cons_of_mem _ hL1, j, it, hj, hp, hM, hv⟩
    · rcases a5 with a5 | ⟨L1, hL1, j, it, hj, hp, hM, hv⟩
      · rcases b5 with b5 | ⟨j, it, hj, hp, hM, hv⟩
        · left; omega
        · right
          exact ⟨L, List.mem_cons_self _ _, j, it, hj, by omega, hM, by omega⟩
      · right
        exact ⟨L1, List.mem_cons_of_mem _ hL1, j, it, hj, hp, hM, hv⟩

/-! ## The wrapped error of an object -/

theorem Trace_shape (M : Int) (callers : List Frame) (h h1 : Heap) (err r : error)
    (htr : Trace M callers h err = some (h1, r)) :
    h1 = h ∨ (err ≠ .nil ∧ ∃ stack, h1 = h ++ [Error.mk err stack []]) := by
  by_cases hnil : err = .nil
  · simp only [Trace, if_pos hnil, Option.some.injEq, Prod.mk.injEq] at htr
    exact Or.inl htr.1.symm
  · by_cases hM : M < 0
    · simp [Trace, hnil, hM] at htr
    · simp only [Trace, if_neg hnil, if_neg hM] at htr
      split at htr <;>
      · simp only [Option.some.injEq, Prod.mk.injEq] at htr
        exact Or.inr ⟨hnil, _, htr.1.symm⟩

theorem Attach_shape {α : Type} (sprintfV : α → String) (caller : Option String)
    (h h1 : Heap) (err r : error) (ctx : List α)
    (hat : Attach sprintfV caller h err ctx = some (h1, r)) :
    h1 = h ∨ (err ≠ .nil ∧ (∀ p, err ≠ .annotated p) ∧
        ∃ layers, h1 = h ++ [Error.mk err [] layers]) ∨
      (∃ p e l, err = .annotated p ∧ h[p]? = some e ∧
        h1 = h.set p { e with Context := e.Context ++ [l] }) := by
  cases err with
  | nil =>
    simp only [Attach, if_true, Option.some.injEq, Prod.mk.injEq] at hat
    exact Or.inl hat.1.symm
  | plain msg cause =>
    rw [Attach_plain] at hat
    refine Or.inr (Or.inl ⟨fun hc => error.noConfusion hc, fun p hc => error.noConfusion hc, ?_⟩)
    split at hat <;>
    · simp only [Option.some.injEq, Prod.mk.injEq] at hat
      exact ⟨_, hat.1.symm⟩
  | annotated p =>
    rw [Attach_annotated] at hat
    by_cases hlen : ctx.length < 2
    · rw [if_pos hlen] at hat
      simp only [Option.some.injEq, Prod.mk.injEq] at hat
      exact Or.inl hat.1.symm
    · rw [if_neg hlen] at hat
      cases hget : h[p]? with
      | none => rw [hget] at hat; cases hat
      | some e =>
        rw [hget] at hat
        simp only [Option.some.injEq, Prod.mk.injEq] at hat
        exact Or.inr (Or.inr ⟨p, e, _, rfl, hget, hat.1.symm⟩)

theorem getElem?_lt_length {h : Heap} {p : Nat} {e : Error} (hget : h[p]? = some e) :
    p < h.length := by
  rcases Nat.lt_or_ge p h.length with hlt | hge
  · exact hlt
  · rw [List.getElem?_eq_none hge] at hget
    cases hget

theorem error.closed_mono {n m : Nat} (hnm : n ≤ m) :
    ∀ err : error, error.closed n err → error.closed m err := by
  intro err
  induction err with
  | nil => intro _; trivial
  | plain msg c ih => intro hc; exact ih hc
  | annotated p => intro hc; exact Nat.lt_of_lt_of_le hc hnm

theorem Heap.ordered_append (h : Heap) (e : Error) (ho : Heap.ordered h)
    (hne : e.Err ≠ .nil) (hc : error.closed h.length e.Err) : Heap.ordered (h ++ [e]) := by
  intro p e1 hget
  rcases Nat.lt_or_ge p h.length with hlt | hge
  · rw [List.getElem?_append_left hlt] at hget
    exact ho p e1 hget
  · have hp : p = h.length := by
      have := getElem?_lt_length hget
      simp only [List.length_append, List.length_singleton] at this
      omega
    subst hp
    simp only [List.getElem?_concat_length, Option.some.injEq] at hget
    subst hget
    exact ⟨hne, hc⟩

theorem Heap.ordered_set (h : Heap) (p : Nat) (e e1 : Error) (ho : Heap.ordered h)
    (hget : h[p]? = some e) (herr : e1.Err = e.Err) : Heap.ordered (h.set p e1) := by
  intro q e2 hq
  by_cases hqp : p = q
  · subst hqp
    have hp := getElem?_lt_length hget
    simp only [List.getElem?_set, if_true, hp] at hq
    simp only [Option.some.injEq] at hq
    subst hq
    rw [herr]
    exact ho p e hget
  · simp only [List.getElem?_set, if_neg hqp] at hq
    exact ho q e2 hq

theorem Constructed.ordered {α : Type} (sprintfV : α → String) (h : Heap)
    (hc : Constructed sprintfV h) : Heap.ordered h := by
  induction hc with
  | empty => intro p e hget; simp at hget
  | @trace h h1 r M callers err _ hcl htr ih =>
    rcases Trace_shape M callers h h1 err r htr with hEq | ⟨hne, stack, hEq⟩
    · rw [hEq]; exact ih
    · rw [hEq]; exact Heap.ordered_append h _ ih hne hcl
  | @attach h h1 r caller err ctx _ hcl hat ih =>
    rcases Attach_shape sprintfV caller h h1 err r ctx hat with
      hEq | ⟨hne, _, layers, hEq⟩ | ⟨p, e, l, _, hget, hEq⟩
    · rw [hEq]; exact ih
    · rw [hEq]; exact Heap.ordered_append h _ ih hne hcl
    · rw [hEq]; exact Heap.ordered_set h p e _ ih hget rfl

theorem Heap.ordered_Error (h : Heap) (ho : Heap.ordered h) :
    ∀ p, p < h.length → ∃ m, ∀ fuel, p + 1 ≤ fuel →
      error.Error h fuel (.annotated p) = some m := by
  intro p
  induction p using Nat.strong_induction_on with
  | _ p ih =>
    intro hp
    have hget : h[p]? = some h[p] := List.getElem?_eq_getElem hp
    obtain ⟨hne, hcl⟩ := ho p h[p] hget
    cases hE : h[p].Err with
    | nil => exact absurd hE hne
    | plain msg c =>
      refine ⟨msg, fun fuel hle => ?_⟩
      obtain ⟨j, rfl⟩ : ∃ j, fuel = j + 1 := ⟨fuel - 1, by omega⟩
      simp only [error.Error, hget, hE]
    | annotated q =>
      rw [hE] at hcl
      have hq : q < p := hcl
      obtain ⟨m, hm⟩ := ih q hq (Nat.lt_trans hq hp)
      refine ⟨m, fun fuel hle => ?_⟩
      obtain ⟨j, rfl⟩ : ∃ j, fuel = j + 1 := ⟨fuel - 1, by omega⟩
      simp only [error.Error, hget, hE]
      exact hm j (by omega)

theorem Heap.ordered_ChainEnds (h : Heap) (ho : Heap.ordered h) :
    ∀ n, n ≤ h.length → ∀ err, error.closed n err → ChainEnds h err := by
  intro n
  induction n using Nat.strong_induction_on with
  | _ n ih =>
    intro hn err
    induction err with
    | nil => intro _; exact ChainEnds.nil
    | plain msg c ihc => intro hc; exact ChainEnds.plain msg (ihc hc)
    | annotated p =>
      intro hc
      have hp : p < n := hc
      have hget : h[p]? = some h[p] := List.getElem?_eq_getElem (Nat.lt_of_lt_of_le hp hn)
      exact ChainEnds.annotated hget
        (ih p hp (Nat.le_of_lt (Nat.lt_of_lt_of_le hp hn)) _ (ho p _ hget).2)

/-- C16: in every heap built by `Trace` and `Attach` alone every `*Error` has
a non-nil `Err`.  When the error arguments are nil, earlier results, or foreign
errors that wrap only earlier results, every allocated `*Error` has a finite
chain of causes and `Error()` on it returns a text (given fuel above its
address), so it never dereferences nil.  Neither `Trace` nor `Attach` changes
the `Err` of an object that exists before the call. -/
theorem err_never_nil {α : Type} (sprintfV : α → String) :
    (∀ h : Heap, Built sprintfV h → ∀ e ∈ h, e.Err ≠ .nil) ∧
    (∀ h : Heap, Constructed sprintfV h → ∀ p, p < h.length →
      ChainEnds h (.annotated p) ∧
      ∃ m, ∀ fuel, p + 1 ≤ fuel → error.Error h fuel (.annotated p) = some m) ∧
    (∀ (M : Int) (callers : List Frame) (h h1 : Heap) (err r : error),
      Trace M callers h err = some (h1, r) →
      ∀ (p : Nat) (e : Error), h[p]? = some e →
        ∃ e1 : Error, h1[p]? = some e1 ∧ e1.Err = e.Err) ∧
    (∀ (caller : Option String) (h h1 : Heap) (err r : error) (ctx : List α),
      Attach sprintfV caller h err ctx = some (h1, r) →
      ∀ (p : Nat) (e : Error), h[p]? = some e →
        ∃ e1 : Error, h1[p]? = some e1 ∧ e1.Err = e.Err) := by
  have happ : ∀ (h : Heap) (x : Error) (p : Nat) (e : Error), h[p]? = some e →
      ∃ e1, (h ++ [x])[p]? = some e1 ∧ e1.Err = e.Err := by
    intro h x p e hget
    exact ⟨e, by rw [List.getElem?_append_left (getElem?_lt_length hget)]; exact hget, rfl⟩
  refine ⟨?_, ?_, ?_, ?_⟩
  · intro h hb
    induction hb with
    | empty => intro e he; cases he
    | @trace h h1 r M callers err _ htr ih =>
      rcases Trace_shape M callers h h1 err r htr with hEq | ⟨hne, stack, hEq⟩
      · rw [hEq]; exact ih
      · rw [hEq]
        intro e he
        rcases List.mem_append.mp he with hold | hnew
        · exact ih e hold
        · rw [List.mem_singleton] at hnew
          rw [hnew]
          exact hne
    | @attach h h1 r caller err ctx _ hat ih =>
      rcases Attach_shape sprintfV caller h h1 err r ctx hat with
        hEq | ⟨hne, _, layers, hEq⟩ | ⟨p, e0, l, _, hget, hEq⟩
      · rw [hEq]; exact ih
      · rw [hEq]
        intro e he
        rcases List.mem_append.mp he with hold | hnew
        · exact ih e hold
        · rw [List.mem_singleton] at hnew
          rw [hnew]
          exact hne
      · rw [hEq]
        intro e he
        rcases List.mem_or_eq_of_mem_set he with hold | hnew
        · exact ih e hold
        · rw [hnew]
          exact ih e0 (List.getElem?_mem hget)
  · intro h hc p hp
    have ho := Constructed.ordered sprintfV h hc
    exact ⟨Heap.ordered_ChainEnds h ho (p + 1) hp (.annotated p) (Nat.lt_succ_self p),
      Heap.ordered_Error h ho p hp⟩
  · intro M callers h h1 err r htr p e hget
    rcases Trace_shape M callers h h1 err r htr with hEq | ⟨_, stack, hEq⟩
    · rw [hEq]; exact ⟨e, hget, rfl⟩
    · rw [hEq]; exact happ h _ p e hget
  · intro caller h h1 err r ctx hat p e hget
    rcases Attach_shape sprintfV caller h h1 err r ctx hat with
      hEq | ⟨_, _, layers, hEq⟩ | ⟨q, e0, l, _, hq, hEq⟩
    · rw [hEq]; exact ⟨e, hget, rfl⟩
    · rw [hEq]; exact happ h _ p e hget
    · rw [hEq]
      by_cases hqp : q = p
      · subst hqp
        rw [hq] at hget
        simp only [Option.some.injEq] at hget
        subst hget
        exact ⟨{ e0 with Context := e0.Context ++ [l] },
          by simp [List.getElem?_set, getElem?_lt_length hq], rfl⟩
      · exact ⟨e, by simp [List.getElem?_set, hqp, hget], rfl⟩

theorem err_never_nil_witness :
    ∃ m, ∀ fuel, 1 + 1 ≤ fuel →
      error.Error [⟨.plain "x" .nil, [⟨"main.f", "f.go", 3⟩], []⟩,
        ⟨.annotated 0, [], [⟨"main.g", ["op", "write"]⟩]⟩] fuel (.annotated 1) = some m := by
  have c1 : Constructed (fun s : String => s)
      [⟨.plain "x" .nil, [⟨"main.f", "f.go", 3⟩], []⟩] :=
    Constructed.trace 8 [⟨"main.f", "f.go", 3⟩] (.plain "x" .nil) Constructed.empty
      (by decide)
      (show Trace 8 [⟨"main.f", "f.go", 3⟩] [] (.plain "x" .nil)
        = some ([⟨.plain "x" .nil, [⟨"main.f", "f.go", 3⟩], []⟩], .annotated 0) by decide)
  have c2 : Constructed (fun s : String => s)
      [⟨.plain "x" .nil, [⟨"main.f", "f.go", 3⟩], []⟩, ⟨.annotated 0, [], []⟩] :=
    Constructed.trace 0 [] (.annotated 0) c1 (by decide)
      (show Trace 0 [] [⟨.plain "x" .nil, [⟨"main.f", "f.go", 3⟩], []⟩] (.annotated 0)
        = some ([⟨.plain "x" .nil, [⟨"main.f", "f.go", 3⟩], []⟩, ⟨.annotated 0, [], []⟩],
            .annotated 1) by decide)
  have c3 : Constructed (fun s : String => s)
      [⟨.plain "x" .nil, [⟨"main.f", "f.go", 3⟩], []⟩,
        ⟨.annotated 0, [], [⟨"main.g", ["op", "write"]⟩]⟩] :=
    Constructed.attach (some "main.g") (.annotated 1) ["op", "write"] c2 (by decide)
      (show Attach (fun s : String => s) (some "main.g")
          [⟨.plain "x" .nil, [⟨"main.f", "f.go", 3⟩], []⟩, ⟨.annotated 0, [], []⟩]
          (.annotated 1) ["op", "write"]
        = some ([⟨.plain "x" .nil, [⟨"main.f", "f.go", 3⟩], []⟩,
            ⟨.annotated 0, [], [⟨"main.g", ["op", "write"]⟩]⟩], .annotated 1) by decide)
  exact ((err_never_nil (fun s : String => s)).2.1 _ c3 1 (by decide)).2

/-! ## The Context section as a list of rendered pairs -/

theorem join_append (xs ys : List String) :
    String.join (xs ++ ys) = String.join xs ++ String.join ys := by
  apply String.ext
  simp [String.data_join]

theorem keepUnseen_append (xs ys : List Entry) :
    ∀ tags, keepUnseen (xs ++ ys) tags
      = keepUnseen xs tags ++ keepUnseen ys (seenAfter xs tags) := by
  induction xs with
  | nil => intro tags; simp [keepUnseen, seenAfter]
  | cons x xs ih =>
    intro tags
    simp only [List.cons_append, keepUnseen, seenAfter]
    by_cases hk : x.key ∈ tags
    · simp only [if_pos hk]; exact ih tags
    · simp only [if_neg hk, List.cons_append]
      exact congrArg (List.cons x) (ih (x.key :: tags))

theorem formatContext.pairs_entries (l : Nat) (w : Int × Int) (func : String) (n : Nat) :
    ∀ (m : Nat) (vs : List String), vs.length ≤ m → ∀ (i : Nat) (tags : List String) (b : String),
      formatContext.pairs l w func vs i tags b
        = (seenAfter (Layer.entries n func vs i) tags,
           b ++ String.join ((keepUnseen (Layer.entries n func vs i) tags).map (entryLine l w))) := by
  intro m
  induction m using Nat.strong_induction_on with
  | _ m ih =>
    intro vs hm i tags b
    match vs, hm with
    | [], _ => simp [formatContext.pairs, Layer.entries, keepUnseen, seenAfter, String.join]
    | [_], _ => simp [formatContext.pairs, Layer.entries, keepUnseen, seenAfter, String.join]
    | k :: v :: rest, hm =>
      have hlt : rest.length < m := by simp only [List.length_cons] at hm; omega
      simp only [formatContext.pairs, Layer.entries, keepUnseen, seenAfter]
      by_cases hk : k ∈ tags
      · simp only [if_pos hk]
        exact ih _ hlt rest (Nat.le_refl _) _ _ _
      · simp only [if_neg hk]
        rw [ih _ hlt rest (Nat.le_refl _)]
        simp only [List.map_cons, join_cons, entryLine]
        by_cases hi : i = 0
        · simp only [if_pos hi, String.append_assoc]
        · simp only [if_neg hi, String.append_assoc, String.append_empty]

theorem formatContext.layers_entries (l : Nat) (w : Int × Int) :
    ∀ (ls : List Layer) (n : Nat) (tags : List String) (b : String),
      formatContext.layers l w ls tags b
        = b ++ String.join ((keepUnseen (contextEntries ls n) tags).map (entryLine l w)) := by
  intro ls
  induction ls with
  | nil => intro n tags b; simp [formatContext.layers, contextEntries, keepUnseen, String.join]
  | cons layer rest ih =>
    intro n tags b
    simp only [formatContext.layers, contextEntries]
    rw [formatContext.pairs_entries l w layer.Func n _ layer.Values (Nat.le_refl _)]
    rw [ih (n + 1), keepUnseen_append, List.map_append, join_append, String.append_assoc]

theorem formatContext_rendered (M : Int) (l : Nat) (e : Error) (b : String) :
    formatContext M l e b
      = b ++ String.join ((rendered e.Context).map
          (entryLine l (formatContext.maxWidth M e.Context (0, 0)))) :=
  formatContext.layers_entries l _ e.Context 0 [] b

theorem mem_keepUnseen (x : Entry) :
    ∀ (es : List Entry) (tags : List String),
      x ∈ keepUnseen es tags ↔
        ∃ pre post, es = pre ++ x :: post ∧ x.key ∉ tags ∧ ∀ y ∈ pre, y.key ≠ x.key := by
  intro es
  induction es with
  | nil =>
    intro tags
    simp [keepUnseen]
  | cons a rest ih =>
    intro tags
    simp only [keepUnseen]
    by_cases ha : a.key ∈ tags
    · rw [if_pos ha, ih tags]
      constructor
      · rintro ⟨pre, post, hEq, hx, hpre⟩
        refine ⟨a :: pre, post, by rw [hEq]; rfl, hx, ?_⟩
        intro y hy
        rcases List.mem_cons.mp hy with hya | hyp
        · rw [hya]; intro hk; exact hx (hk ▸ ha)
        · exact hpre y hyp
      · rintro ⟨pre, post, hEq, hx, hpre⟩
        cases pre with
        | nil =>
          simp only [List.nil_append, List.cons.injEq] at hEq
          exact absurd (hEq.1 ▸ ha) hx
        | cons p pre1 =>
          simp only [List.cons_append, List.cons.injEq] at hEq
          exact ⟨pre1, post, hEq.2, hx, fun y hy => hpre y (List.mem_cons_of_mem _ hy)⟩
    · rw [if_neg ha, List.mem_cons, ih (a.key :: tags)]
      constructor
      · rintro (hxa | ⟨pre, post, hEq, hx, hpre⟩)
        · exact ⟨[], rest, by rw [hxa]; rfl, by rw [hxa]; exact ha, fun y hy => by cases hy⟩
        · refine ⟨a :: pre, post, by rw [hEq]; rfl,
            fun hk => hx (List.mem_cons_of_mem _ hk), ?_⟩
          intro y hy
          rcases List.mem_cons.mp hy with hya | hyp
          · rw [hya]; intro hk; exact hx (hk ▸ List.mem_cons_self _ _)
          · exact hpre y hyp
      · rintro ⟨pre, post, hEq, hx, hpre⟩
        cases pre with
        | nil =>
          simp only [List.nil_append, List.cons.injEq] at hEq
          exact Or.inl hEq.1.symm
        | cons p pre1 =>
          simp only [List.cons_append, List.cons.injEq] at hEq
          refine Or.inr ⟨pre1, post, hEq.2, ?_, fun y hy => hpre y (List.mem_cons_of_mem _ hy)⟩
          intro hk
          rcases List.mem_cons.mp hk with hka | hkt
          · exact hpre p (List.mem_cons_self _ _) (by rw [← hEq.1]; exact hka.symm)
          · exact hx hkt

theorem keepUnseen_sublist :
    ∀ (es : List Entry) (tags : List String), (keepUnseen es tags).Sublist es := by
  intro es
  induction es with
  | nil => intro tags; simp [keepUnseen]
  | cons a rest ih =>
    intro tags
    simp only [keepUnseen]
    by_cases ha : a.key ∈ tags
    · rw [if_pos ha]; exact (ih tags).cons a
    · rw [if_neg ha]; exact (ih (a.key :: tags)).cons₂ a

theorem keepUnseen_keys_nodup :
    ∀ (es : List Entry) (tags : List String),
      ((keepUnseen es tags).map (fun x => x.key)).Nodup ∧
      ∀ k ∈ (keepUnseen es tags).map (fun x => x.key), k ∉ tags := by
  intro es
  induction es with
  | nil => intro tags; simp [keepUnseen]
  | cons a rest ih =>
    intro tags
    simp only [keepUnseen]
    by_cases ha : a.key ∈ tags
    · rw [if_pos ha]; exact ih tags
    · rw [if_neg ha]
      obtain ⟨hnd, hnot⟩ := ih (a.key :: tags)
      refine ⟨?_, ?_⟩
      · rw [List.map_cons, List.nodup_cons]
        exact ⟨fun hmem => hnot _ hmem (List.mem_cons_self _ _), hnd⟩
      · intro k hk
        rw [List.map_cons] at hk
        rcases List.mem_cons.mp hk with hka | hkt
        · rw [hka]; exact ha
        · exact fun hkt2 => hnot k hkt (List.mem_cons_of_mem _ hkt2)

theorem keepUnseen_covers :
    ∀ (es : List Entry) (tags : List String), ∀ x ∈ es,
      x.key ∈ tags ∨ ∃ r ∈ keepUnseen es tags, r.key = x.key := by
  intro es
  induction es with
  | nil => intro tags x hx; cases hx
  | cons a rest ih =>
    intro tags x hx
    simp only [keepUnseen]
    by_cases ha : a.key ∈ tags
    · rw [if_pos ha]
      rcases List.mem_cons.mp hx with hxa | hxr
      · rw [hxa]; exact Or.inl ha
      · exact ih tags x hxr
    · rw [if_neg ha]
      rcases List.mem_cons.mp hx with hxa | hxr
      · exact Or.inr ⟨a, List.mem_cons_self _ _, by rw [hxa]⟩
      · rcases ih (a.key :: tags) x hxr with hk | ⟨r, hr, hrk⟩
        · rcases List.mem_cons.mp hk with hka | hkt
          · exact Or.inr ⟨a, List.mem_cons_self _ _, hka.symm⟩
          · exact Or.inl hkt
        · exact Or.inr ⟨r, List.mem_cons_of_mem _ hr, hrk⟩

theorem mem_Layer_entries (n : Nat) (func : String) (x : Entry) :
    ∀ (m : Nat) (vs : List String), vs.length ≤ m → ∀ s : Nat,
      x ∈ Layer.entries n func vs s ↔
        x.layer = n ∧ x.func = func ∧
        ∃ j, x.pos = s + 2 * j ∧ vs[2 * j]? = some x.key ∧ vs[2 * j + 1]? = some x.value := by
  intro m
  induction m using Nat.strong_induction_on with
  | _ m ih =>
    intro vs hm s
    match vs, hm with
    | [], _ => simp [Layer.entries]
    | [a], _ => simp [Layer.entries]
    | k :: v :: rest, hm =>
      have hlt : rest.length < m := by simp only [List.length_cons] at hm; omega
      simp only [Layer.entries, List.mem_cons]
      rw [ih _ hlt rest (Nat.le_refl _) (s + 2)]
      constructor
      · rintro (hx | ⟨h1, h2, j, hj, hk, hv⟩)
        · subst hx
          exact ⟨rfl, rfl, 0, rfl, by simp, by simp⟩
        · refine ⟨h1, h2, j + 1, by omega, ?_, ?_⟩
          · have : 2 * (j + 1) = 2 * j + 1 + 1 := by omega
            rw [this]; simpa using hk
          · have : 2 * (j + 1) + 1 = 2 * j + 1 + 1 + 1 := by omega
            rw [this]; simpa using hv
      · rintro ⟨h1, h2, j, hj, hk, hv⟩
        cases j with
        | zero =>
          left
          simp only [Nat.mul_zero, List.getElem?_cons_zero, Option.some.injEq, Nat.zero_add,
            List.getElem?_cons_succ] at hk hv
          cases x
          simp only [Entry.mk.injEq]
          simp only at h1 h2 hj hk hv
          exact ⟨h1, by omega, hk.symm, hv.symm, h2⟩
        | succ j =>
          right
          refine ⟨h1, h2, j, by omega, ?_, ?_⟩
          · have : 2 * (j + 1) = 2 * j + 1 + 1 := by omega
            rw [this] at hk; simpa using hk
          · have : 2 * (j + 1) + 1 = 2 * j + 1 + 1 + 1 := by omega
            rw [this] at hv; simpa using hv

theorem mem_contextEntries (x : Entry) :
    ∀ (ls : List Layer) (s : Nat),
      x ∈ contextEntries ls s ↔
        ∃ L, s ≤ x.layer ∧ ls[x.layer - s]? = some L ∧ x.func = L.Func ∧
          ∃ j, x.pos = 2 * j ∧ L.Values[2 * j]? = some x.key ∧
            L.Values[2 * j + 1]? = some x.value := by
  intro ls
  induction ls with
  | nil => intro s; simp [contextEntries]
  | cons layer rest ih =>
    intro s
    simp only [contextEntries, List.mem_append]
    rw [mem_Layer_entries s layer.Func x _ layer.Values (Nat.le_refl _) 0, ih (s + 1)]
    constructor
    · rintro (⟨h1, h2, j, hj, hk, hv⟩ | ⟨L, h1, h2, h3, j, hj, hk, hv⟩)
      · refine ⟨layer, by omega, ?_, h2, j, by omega, hk, hv⟩
        rw [h1]; simp
      · refine ⟨L, by omega, ?_, h3, j, hj, hk, hv⟩
        have : x.layer - s = (x.layer - (s + 1)) + 1 := by omega
        rw [this]; simpa using h2
    · rintro ⟨L, h1, h2, h3, j, hj, hk, hv⟩
      by_cases hs : x.layer = s
      · left
        rw [hs] at h2
        simp only [Nat.sub_self, List.getElem?_cons_zero, Option.some.injEq] at h2
        subst h2
        exact ⟨hs, h3, j, by omega, hk, hv⟩
      · right
        refine ⟨L, by omega, ?_, h3, j, hj, hk, hv⟩
        have : x.layer - s = (x.layer - (s + 1)) + 1 := by omega
        rw [this] at h2; simpa using h2

theorem Layer.entries_pairwise (n : Nat) (func : String) :
    ∀ (m : Nat) (vs : List String), vs.length ≤ m → ∀ s : Nat,
      (Layer.entries n func vs s).Pairwise
        (fun x y => x.layer < y.layer ∨ (x.layer = y.layer ∧ x.pos < y.pos)) := by
  intro m
  induction m using Nat.strong_induction_on with
  | _ m ih =>
    intro vs hm s
    match vs, hm with
    | [], _ => simp [Layer.entries]
    | [a], _ => simp [Layer.entries]
    | k :: v :: rest, hm =>
      have hlt : rest.length < m := by simp only [List.length_cons] at hm; omega
      simp only [Layer.entries, List.pairwise_cons]
      refine ⟨?_, ih _ hlt rest (Nat.le_refl _) (s + 2)⟩
      intro y hy
      obtain ⟨h1, _, j, hj, _, _⟩ :=
        (mem_Layer_entries n func y _ rest (Nat.le_refl _) (s + 2)).mp hy
      right
      exact ⟨h1.symm, by show s < y.pos; omega⟩

theorem contextEntries_pairwise :
    ∀ (ls : List Layer) (s : Nat),
      (contextEntries ls s).Pairwise
        (fun x y => x.layer < y.layer ∨ (x.layer = y.layer ∧ x.pos < y.pos)) := by
  intro ls
  induction ls with
  | nil => intro s; simp [contextEntries]
  | cons layer rest ih =>
    intro s
    simp only [contextEntries]
    rw [List.pairwise_append]
    refine ⟨Layer.entries_pairwise s layer.Func _ layer.Values (Nat.le_refl _) 0, ih (s + 1), ?_⟩
    intro x hx y hy
    obtain ⟨h1, _⟩ := (mem_Layer_entries s layer.Func x _ layer.Values (Nat.le_refl _) 0).mp hx
    obtain ⟨_, h2, _⟩ := (mem_contextEntries y rest (s + 1)).mp hy
    left
    omega

/-! ## Keys, attribution and the form of a line -/

theorem mem_contextEntries_zero (ctx : List Layer) (x : Entry) :
    x ∈ contextEntries ctx 0 ↔
      ∃ L, ctx[x.layer]? = some L ∧ x.func = L.Func ∧ x.pos % 2 = 0 ∧
        L.Values[x.pos]? = some x.key ∧ L.Values[x.pos + 1]? = some x.value := by
  rw [mem_contextEntries x ctx 0]
  constructor
  · rintro ⟨L, _, h2, h3, j, hj, hk, hv⟩
    refine ⟨L, by simpa using h2, h3, by omega, ?_, ?_⟩
    · rw [hj]; exact hk
    · rw [hj]; exact hv
  · rintro ⟨L, h2, h3, hp, hk, hv⟩
    refine ⟨L, Nat.zero_le _, by simpa using h2, h3, x.pos / 2, by omega, ?_, ?_⟩
    · have : 2 * (x.pos / 2) = x.pos := by omega
      rw [this]; exact hk
    · have : 2 * (x.pos / 2) = x.pos := by omega
      rw [this]; exact hv

theorem mem_rendered (ctx : List Layer) (r : Entry) :
    r ∈ rendered ctx ↔
      ∃ pre post, contextEntries ctx 0 = pre ++ r :: post ∧ ∀ y ∈ pre, y.key ≠ r.key := by
  unfold rendered
  rw [mem_keepUnseen]
  constructor
  · rintro ⟨pre, post, h1, _, h3⟩
    exact ⟨pre, post, h1, h3⟩
  · rintro ⟨pre, post, h1, h3⟩
    exact ⟨pre, post, h1, by simp, h3⟩

theorem rendered_covers (ctx : List Layer) :
    ∀ x ∈ contextEntries ctx 0, ∃ r ∈ rendered ctx, r.key = x.key := by
  intro x hx
  rcases keepUnseen_covers (contextEntries ctx 0) [] x hx with hk | hr
  · cases hk
  · exact hr

/-- C11: the Context section is the concatenation of one line per rendered
pair, where the pairs of the `Context` are taken layer by layer and, within a
layer, position by position, and a pair is rendered exactly when no earlier
pair has its key.  So the rendered pairs are a subsequence of all pairs (the
order of the first occurrences), no key is rendered twice, the key of every
pair is rendered, and the line of a key carries the value of its first
occurrence; with even-length `Values` every string at an even index is such a
key.  Layers `[id 7 id 8]` and `[id 9]` give the single line of `id` with
value `7`. -/
theorem context_key_rendered_once (MaxColumnWidth : Int) (l : Nat) (e : Error) (b : String) :
    formatContext MaxColumnWidth l e b
      = b ++ String.join ((rendered e.Context).map
          (entryLine l (formatContext.maxWidth MaxColumnWidth e.Context (0, 0)))) ∧
    (∀ x : Entry, x ∈ contextEntries e.Context 0 ↔
      ∃ L, e.Context[x.layer]? = some L ∧ x.func = L.Func ∧ x.pos % 2 = 0 ∧
        L.Values[x.pos]? = some x.key ∧ L.Values[x.pos + 1]? = some x.value) ∧
    (contextEntries e.Context 0).Pairwise
      (fun x y => x.layer < y.layer ∨ (x.layer = y.layer ∧ x.pos < y.pos)) ∧
    (rendered e.Context).Sublist (contextEntries e.Context 0) ∧
    ((rendered e.Context).map (fun x => x.key)).Nodup ∧
    (∀ x ∈ contextEntries e.Context 0, ∃ r ∈ rendered e.Context, r.key = x.key) ∧
    (∀ r : Entry, r ∈ rendered e.Context ↔
      ∃ pre post, contextEntries e.Context 0 = pre ++ r :: post ∧
        ∀ y ∈ pre, y.key ≠ r.key) ∧
    ((∀ L ∈ e.Context, L.Values.length % 2 = 0) →
      ∀ L ∈ e.Context, ∀ (i : Nat) (k : String), i % 2 = 0 → L.Values[i]? = some k →
        ∃ r ∈ rendered e.Context, r.key = k) ∧
    formatContext 25 1
        ⟨.nil, [], [⟨"main.f", ["id", "7", "id", "8"]⟩, ⟨"main.g", ["id", "9"]⟩]⟩ ""
      = "\n\t[ id ]    7    by main.f()" := by
  refine ⟨formatContext_rendered MaxColumnWidth l e b, mem_contextEntries_zero e.Context,
    contextEntries_pairwise e.Context 0, keepUnseen_sublist _ _,
    (keepUnseen_keys_nodup _ _).1, rendered_covers e.Context, mem_rendered e.Context,
    ?_, by decide⟩
  intro heven L hL i k hi hk
  obtain ⟨n, hn⟩ := List.mem_iff_getElem?.mp hL
  have hlen : i < L.Values.length := by
    rcases Nat.lt_or_ge i L.Values.length with hlt | hge
    · exact hlt
    · rw [List.getElem?_eq_none hge] at hk; cases hk
  have hev := heven L hL
  have hlen1 : i + 1 < L.Values.length := by omega
  have hx : (Entry.mk n i k (L.Values[i + 1]) L.Func) ∈ contextEntries e.Context 0 :=
    (mem_contextEntries_zero e.Context _).mpr
      ⟨L, hn, rfl, hi, hk, List.getElem?_eq_getElem hlen1⟩
  exact rendered_covers e.Context _ hx

theorem context_key_rendered_once_witness :
    ∃ r ∈ rendered [⟨"main.f", ["id", "7", "id", "8"]⟩, ⟨"main.g", ["id", "9"]⟩],
      r.key = "id" :=
  (context_key_rendered_once 25 1
    ⟨.nil, [], [⟨"main.f", ["id", "7", "id", "8"]⟩, ⟨"main.g", ["id", "9"]⟩]⟩ "").2.2.2.2.2.2.2.1
    (by decide) ⟨"main.g", ["id", "9"]⟩ (by decide) 0 "id" rfl rfl

theorem entry_eq_head (ctx : List Layer) (n : Nat) (L : Layer) (k v : String) (x : Entry)
    (hL : ctx[n]? = some L) (hk : L.Values[0]? = some k) (hv : L.Values[1]? = some v)
    (hx : x ∈ contextEntries ctx 0) (hlayer : x.layer = n) (hpos : x.pos = 0) :
    x = ⟨n, 0, k, v, L.Func⟩ := by
  obtain ⟨L1, h1, h2, _, h4, h5⟩ := (mem_contextEntries_zero ctx x).mp hx
  rw [hlayer, hL] at h1
  simp only [Option.some.injEq] at h1
  subst h1
  rw [hpos, hk] at h4
  rw [hpos, hv] at h5
  simp only [Option.some.injEq] at h4 h5
  cases x
  simp only [Entry.mk.injEq]
  simp only at hlayer hpos h2 h4 h5
  exact ⟨hlayer, hpos, h4.symm, h5.symm, h2⟩

theorem head_mem_contextEntries (ctx : List Layer) (n : Nat) (L : Layer) (k v : String)
    (hL : ctx[n]? = some L) (hk : L.Values[0]? = some k) (hv : L.Values[1]? = some v) :
    (Entry.mk n 0 k v L.Func) ∈ contextEntries ctx 0 :=
  (mem_contextEntries_zero ctx _).mpr ⟨L, hL, rfl, rfl, hk, hv⟩

theorem rendered_head_iff (ctx : List Layer) (n : Nat) (L : Layer) (k v : String)
    (hL : ctx[n]? = some L) (hk : L.Values[0]? = some k) (hv : L.Values[1]? = some v) :
    (Entry.mk n 0 k v L.Func) ∈ rendered ctx ↔
      ∀ y ∈ contextEntries ctx 0, y.layer < n → y.key ≠ k := by
  have hord := contextEntries_pairwise ctx 0
  rw [mem_rendered]
  constructor
  · rintro ⟨pre, post, hEq, hpre⟩ y hy hlt
    rw [hEq] at hy hord
    rcases List.mem_append.mp hy with hp | hq
    · exact hpre y hp
    · rcases List.mem_cons.mp hq with hyx | hpost
      · rw [hyx] at hlt; exact absurd hlt (Nat.lt_irrefl _)
      · have hr := (List.pairwise_cons.mp (List.pairwise_append.mp hord).2.1).1 y hpost
        rcases hr with h1 | ⟨h1, _⟩
        · exact absurd hlt (Nat.lt_asymm h1)
        · rw [← h1] at hlt; exact absurd hlt (Nat.lt_irrefl _)
  · intro hnew
    obtain ⟨pre, post, hEq⟩ := List.append_of_mem (head_mem_contextEntries ctx n L k v hL hk hv)
    refine ⟨pre, post, hEq, ?_⟩
    intro y hy
    have hymem : y ∈ contextEntries ctx 0 := by
      rw [hEq]; exact List.mem_append_left _ hy
    rw [hEq] at hord
    have hr := (List.pairwise_append.mp hord).2.2 y hy _ (List.mem_cons_self _ _)
    rcases hr with h1 | ⟨_, h2⟩
    · exact hnew y hymem h1
    · exact absurd h2 (Nat.not_lt_zero _)

theorem head_values {L : Layer} (hlen : 2 ≤ L.Values.length) :
    ∃ k v, L.Values[0]? = some k ∧ L.Values[1]? = some v :=
  ⟨L.Values[0], L.Values[1], List.getElem?_eq_getElem (by omega),
    List.getElem?_eq_getElem (by omega)⟩

/-- C12: for a layer `L` at index `n` of the `Context`, with non-empty
`Values` of even length, let `k` and `v` be its position-0 key and value.  A
pair of `L` with position 0 is rendered if and only if no pair of an earlier
layer has the key `k`, and it is then the pair `(k, v)`.  The line of a
rendered pair of `L` ends with the attribution, four blanks, `by `, the base
name of `L.Func` and `()`, exactly when its position is 0; so the attribution
appears on the line of the position-0 pair and nowhere else, and when `k` is a
duplicate no rendered line of `L` carries it. -/
theorem attribution_iff_first_key_new (MaxColumnWidth : Int) (l : Nat) (e : Error)
    (b : String) (n : Nat) (L : Layer) (hL : e.Context[n]? = some L)
    (hne : L.Values ≠ []) (heven : L.Values.length % 2 = 0) :
    ∃ k v, L.Values[0]? = some k ∧ L.Values[1]? = some v ∧
      formatContext MaxColumnWidth l e b
        = b ++ String.join ((rendered e.Context).map
            (entryLine l (formatContext.maxWidth MaxColumnWidth e.Context (0, 0)))) ∧
      ((∃ x ∈ rendered e.Context, x.layer = n ∧ x.pos = 0) ↔
        ∀ y ∈ contextEntries e.Context 0, y.layer < n → y.key ≠ k) ∧
      (∀ x ∈ rendered e.Context, x.layer = n → x.pos = 0 → x = ⟨n, 0, k, v, L.Func⟩) ∧
      (∀ x ∈ rendered e.Context, x.layer = n → ∀ w : Int × Int,
        entryLine l w x
          = "\n" ++ tabs l ++ "[ " ++ fmtLeft w.1 x.key ++ " ]" ++ "    " ++ fmtRight w.2 x.value
            ++ (if x.pos = 0 then "    by " ++ path.Base L.Func ++ "()" else "")) ∧
      ((∃ y ∈ contextEntries e.Context 0, y.layer < n ∧ y.key = k) →
        ∀ x ∈ rendered e.Context, x.layer = n → x.pos ≠ 0) := by
  have hlen : 2 ≤ L.Values.length := by
    have : L.Values.length ≠ 0 := fun h0 => hne (List.length_eq_zero.mp h0)
    omega
  obtain ⟨k, v, hk, hv⟩ := head_values hlen
  have hsub : ∀ x ∈ rendered e.Context, x ∈ contextEntries e.Context 0 :=
    fun x hx => (keepUnseen_sublist _ _).subset hx
  have hiff : (∃ x ∈ rendered e.Context, x.layer = n ∧ x.pos = 0) ↔
      ∀ y ∈ contextEntries e.Context 0, y.layer < n → y.key ≠ k := by
    rw [← rendered_head_iff e.Context n L k v hL hk hv]
    constructor
    · rintro ⟨x, hx, h1, h2⟩
      rw [← entry_eq_head e.Context n L k v x hL hk hv (hsub x hx) h1 h2]
      exact hx
    · intro hx
      exact ⟨_, hx, rfl, rfl⟩
  refine ⟨k, v, hk, hv, formatContext_rendered MaxColumnWidth l e b, hiff, ?_, ?_, ?_⟩
  · intro x hx h1 h2
    exact entry_eq_head e.Context n L k v x hL hk hv (hsub x hx) h1 h2
  · intro x hx h1 w
    obtain ⟨L1, a1, a2, _⟩ := (mem_contextEntries_zero e.Context x).mp (hsub x hx)
    rw [h1, hL] at a1
    simp only [Option.some.injEq] at a1
    subst a1
    simp only [entryLine, a2, String.append_assoc]
  · rintro ⟨y, hy, hlt, hyk⟩ x hx h1 h2
    exact hiff.mp ⟨x, hx, h1, h2⟩ y hy hlt hyk

theorem attribution_iff_first_key_new_witness :
    ∃ k v, (["op", "write", "retries", "3"] : List String)[0]? = some k ∧
      (["op", "write", "retries", "3"] : List String)[1]? = some v ∧
      ∀ x ∈ rendered [⟨"main.caller1", ["op", "write", "file", "x.txt"]⟩,
          ⟨"main.caller2", ["op", "write", "retries", "3"]⟩],
        x.layer = 1 → x.pos ≠ 0 := by
  obtain ⟨k, v, h1, h2, _, _, _, _, h7⟩ :=
    attribution_iff_first_key_new 25 1
      ⟨.nil, [], [⟨"main.caller1", ["op", "write", "file", "x.txt"]⟩,
        ⟨"main.caller2", ["op", "write", "retries", "3"]⟩]⟩ "" 1
      ⟨"main.caller2", ["op", "write", "retries", "3"]⟩ rfl (by decide) (by decide)
  refine ⟨k, v, h1, h2, h7 ⟨⟨0, 0, "op", "write", "main.caller1"⟩, by decide, by decide, ?_⟩⟩
  have hk : k = "op" := by
    have h1b : some "op" = some k := h1
    exact (Option.some.inj h1b).symm
  rw [hk]

theorem rendered_pairwise (ctx : List Layer) :
    (rendered ctx).Pairwise
      (fun x y => x.layer < y.layer ∨ (x.layer = y.layer ∧ x.pos < y.pos)) :=
  List.Pairwise.sublist (keepUnseen_sublist _ _) (contextEntries_pairwise ctx 0)

theorem filter_eq_singleton (p : Entry → Bool) (a : Entry) :
    ∀ l : List Entry, l.Nodup → a ∈ l → (∀ x ∈ l, p x = true ↔ x = a) →
      l.filter p = [a] := by
  intro l
  induction l with
  | nil => intro _ ha; cases ha
  | cons h t ih =>
    intro hnd ha hp
    have hnd2 := List.nodup_cons.mp hnd
    by_cases hh : h = a
    · subst hh
      have hph : p h = true := (hp h (List.mem_cons_self _ _)).mpr rfl
      have ht : t.filter p = [] := by
        rw [List.filter_eq_nil_iff]
        intro x hx hpx
        have hxa := (hp x (List.mem_cons_of_mem _ hx)).mp hpx
        exact hnd2.1 (hxa ▸ hx)
      rw [List.filter_cons_of_pos hph, ht]
    · have hph : ¬ p h = true := fun hc => hh ((hp h (List.mem_cons_self _ _)).mp hc)
      rw [List.filter_cons_of_neg hph]
      refine ih hnd2.2 ?_ (fun x hx => hp x (List.mem_cons_of_mem _ hx))
      rcases List.mem_cons.mp ha with hah | hat
      · exact absurd hah.symm hh
      · exact hat

theorem head?_of_least (R : Entry → Entry → Prop) (a : Entry) :
    ∀ l : List Entry, l.Pairwise R → a ∈ l → (∀ x ∈ l, ¬ R x a) → l.head? = some a := by
  intro l hpw ha hmin
  cases l with
  | nil => cases ha
  | cons h t =>
    rcases List.mem_cons.mp ha with hah | hat
    · rw [hah]; rfl
    · exact absurd ((List.pairwise_cons.mp hpw).1 a hat) (hmin h (List.mem_cons_self _ _))

/-- C13, as stated, fails on the scenario of two `Attach` calls with the pairs
`op write file x.txt` and `op write retries 3`: the second layer has a rendered
pair, `retries 3`, and its first pair is suppressed, yet no line carries the
attribution of the second layer. -/
theorem attribution_first_surviving_counterexample :
    formatContext 25 1
        ⟨.nil, [], [⟨"main.caller1", ["op", "write", "file", "x.txt"]⟩,
          ⟨"main.caller2", ["op", "write", "retries", "3"]⟩]⟩ ""
      = "\n\t[ op      ]    write    by main.caller1()\n\t[ file    ]    x.txt\n\t[ retries ]        3" ∧
    rendered [⟨"main.caller1", ["op", "write", "file", "x.txt"]⟩,
        ⟨"main.caller2", ["op", "write", "retries", "3"]⟩]
      = [⟨0, 0, "op", "write", "main.caller1"⟩, ⟨0, 2, "file", "x.txt", "main.caller1"⟩,
          ⟨1, 2, "retries", "3", "main.caller2"⟩] ∧
    formatContext 25 1
        ⟨.nil, [], [⟨"main.caller1", ["op", "write", "file", "x.txt"]⟩,
          ⟨"main.caller2", ["op", "write", "retries", "3"]⟩]⟩ ""
      ≠ "\n\t[ op      ]    write    by main.caller1()\n\t[ file    ]    x.txt\n\t[ retries ]        3    by main.caller2()" := by
  decide

theorem formatContext.maxWidth_bounds (M : Int) (ctx : List Layer) (hM : M ≤ 1000000) :
    (0 ≤ (formatContext.maxWidth M ctx (0, 0)).1 ∧
      (formatContext.maxWidth M ctx (0, 0)).1 ≤ 1000000) ∧
    (0 ≤ (formatContext.maxWidth M ctx (0, 0)).2 ∧
      (formatContext.maxWidth M ctx (0, 0)).2 ≤ 1000000) := by
  obtain ⟨⟨a1, a2⟩, _, a4, a5⟩ := formatContext.maxWidth_spec M ctx (0, 0)
  refine ⟨⟨a1, ?_⟩, ⟨a2, ?_⟩⟩
  · rcases a4 with h0 | ⟨_, _, _, _, _, _, hle, hv⟩
    · rw [h0]; decide
    · rw [hv]; exact le_trans hle hM
  · rcases a5 with h0 | ⟨_, _, _, _, _, _, hle, hv⟩
    · rw [h0]; decide
    · rw [hv]; exact le_trans hle hM

/-- C15, as stated, fails: with the pairs `a 1` and `bb 22` in one layer the
line of `a` is `[ a  ]` followed by four blanks and ` 1`, the key with its
blank after it and the value with its blank before it, not the key padded on
the left and the value padded on the right. -/
theorem context_line_padding_counterexample :
    formatContext 25 1 ⟨.nil, [], [⟨"main.f", ["a", "1", "bb", "22"]⟩]⟩ ""
      = "\n\t[ a  ]     1    by main.f()\n\t[ bb ]    22" ∧
    formatContext 25 1 ⟨.nil, [], [⟨"main.f", ["a", "1", "bb", "22"]⟩]⟩ ""
      ≠ "\n\t[  a ]    1     by main.f()\n\t[ bb ]    22" := by
  decide

/-- C15, amended: for `MaxColumnWidth <= 1000000` the Context section at
level `l` is the concatenation of the lines of the rendered pairs, and each
line is a newline, `l` tabs, `[ `, the key followed by blanks up to the key
width, ` ]`, four blanks, the value preceded by blanks up to the value width,
and the attribution when the pair is at position 0.  The number of blanks is
the width minus the number of runes, so a key or value with at least as many
runes as its width is written without blanks. -/
theorem context_line_form (MaxColumnWidth : Int) (l : Nat) (e : Error) (b : String)
    (hM : MaxColumnWidth ≤ 1000000) :
    formatContext MaxColumnWidth l e b
      = b ++ String.join ((rendered e.Context).map
          (entryLine l (formatContext.maxWidth MaxColumnWidth e.Context (0, 0)))) ∧
    ∀ x : Entry,
      entryLine l (formatContext.maxWidth MaxColumnWidth e.Context (0, 0)) x
        = "\n" ++ tabs l ++ "[ "
          ++ (x.key ++ String.mk (List.replicate
              ((formatContext.maxWidth MaxColumnWidth e.Context (0, 0)).1
                - x.key.length).toNat ' '))
          ++ " ]" ++ "    "
          ++ (String.mk (List.replicate
              ((formatContext.maxWidth MaxColumnWidth e.Context (0, 0)).2
                - x.value.length).toNat ' ') ++ x.value)
          ++ (if x.pos = 0 then "    by " ++ path.Base x.func ++ "()" else "") ∧
      ((formatContext.maxWidth MaxColumnWidth e.Context (0, 0)).1 ≤ x.key.length →
        fmtLeft (formatContext.maxWidth MaxColumnWidth e.Context (0, 0)).1 x.key = x.key) ∧
      ((formatContext.maxWidth MaxColumnWidth e.Context (0, 0)).2 ≤ x.value.length →
        fmtRight (formatContext.maxWidth MaxColumnWidth e.Context (0, 0)).2 x.value
          = x.value) := by
  obtain ⟨⟨h1, h2⟩, ⟨h3, h4⟩⟩ :=
    formatContext.maxWidth_bounds MaxColumnWidth e.Context hM
  generalize hw : formatContext.maxWidth MaxColumnWidth e.Context (0, 0) = w at h1 h2 h3 h4 ⊢
  have hbad1 : ¬ (w.1 > 1000000 ∨ w.1 < -1000000) := by omega
  have hbad2 : ¬ (w.2 > 1000000 ∨ w.2 < -1000000) := by omega
  have hneg1 : ¬ w.1 < 0 := by omega
  have hneg2 : ¬ w.2 < 0 := by omega
  have hL : ∀ s : String, fmtLeft w.1 s
      = s ++ String.mk (List.replicate (w.1 - s.length).toNat ' ') := by
    intro s
    simp only [fmtLeft, if_neg hbad1, if_neg hneg1, padding]
  have hR : ∀ s : String, fmtRight w.2 s
      = String.mk (List.replicate (w.2 - s.length).toNat ' ') ++ s := by
    intro s
    simp only [fmtRight, if_neg hbad2, if_neg hneg2, padding]
  have hzero : ∀ (a : Int) (s : String), a ≤ s.length →
      String.mk (List.replicate (a - s.length).toNat ' ') = "" := by
    intro a s hle
    have : (a - s.length).toNat = 0 := by omega
    rw [this]
    rfl
  refine ⟨?_, ?_⟩
  · rw [← hw]
    exact formatContext_rendered MaxColumnWidth l e b
  · intro x
    refine ⟨?_, ?_, ?_⟩
    · simp only [entryLine, hL, hR, String.append_assoc]
    · intro hle
      rw [hL, hzero _ _ hle, String.append_empty]
    · intro hle
      rw [hR, hzero _ _ hle, String.empty_append]

theorem context_line_form_witness :
    entryLine 1 (formatContext.maxWidth 25 [⟨"main.f", ["a", "1", "bb", "22"]⟩] (0, 0))
        ⟨0, 0, "a", "1", "main.f"⟩
      = "\n\t[ a  ]     1    by main.f()" :=
  ((context_line_form 25 1 ⟨.nil, [], [⟨"main.f", ["a", "1", "bb", "22"]⟩]⟩ "" (by decide)).2
    ⟨0, 0, "a", "1", "main.f"⟩).1.trans (by decide)

/-! ## Format along the chain of causes -/

theorem ErrorOutcome_ends (h : Heap) (err : error) (objs : List Error)
    (hchain : Chain h err objs) :
    ∃ (n : Nat) (o : Outcome), o ≠ .unfinished ∧
      ∀ fuel, n ≤ fuel → error.ErrorOutcome h fuel err = o := by
  induction hchain with
  | nil =>
    exact ⟨0, .panics, fun hc => Outcome.noConfusion hc,
      fun fuel _ => by cases fuel <;> rfl⟩
  | plain msg _ _ =>
    exact ⟨0, .returns msg, fun hc => Outcome.noConfusion hc,
      fun fuel _ => by cases fuel <;> rfl⟩
  | @annotated p e objs hget _ ih =>
    obtain ⟨n, o, hne, hn⟩ := ih
    refine ⟨n + 1, o, hne, fun fuel hle => ?_⟩
    obtain ⟨j, rfl⟩ : ∃ j, fuel = j + 1 := ⟨fuel - 1, by omega⟩
    simp only [error.ErrorOutcome, hget]
    exact hn j (by omega)

theorem fmtV_ends (h : Heap) (err : error) (objs : List Error)
    (hchain : Chain h err objs) :
    ∃ (n : Nat) (text : String), ∀ fuel, n ≤ fuel → fmtV h fuel err = some text := by
  cases err with
  | nil => exact ⟨0, "<nil>", fun _ _ => rfl⟩
  | plain msg c => exact ⟨0, msg, fun _ _ => rfl⟩
  | annotated p =>
    obtain ⟨n, o, hne, hn⟩ := ErrorOutcome_ends h _ objs hchain
    cases hget : h[p]? with
    | none => exact ⟨0, "<nil>", fun fuel _ => by simp only [fmtV, hget]⟩
    | some e =>
      cases o with
      | returns text =>
        exact ⟨n, text, fun fuel hle => by simp only [fmtV, hget, hn fuel hle]⟩
      | panics =>
        exact ⟨n,
          "%!v(PANIC=Error method: runtime error: invalid memory address or nil pointer dereference)",
          fun fuel hle => by simp only [fmtV, hget, hn fuel hle]⟩
      | unfinished => exact absurd rfl hne

theorem Format.loop_chain (M : Int) (h : Heap) (err : error) (objs : List Error)
    (hchain : Chain h err objs) :
    ∀ level : Nat, ∃ n : Nat, ∀ fuel, n ≤ fuel → ∀ b,
      Format.loop M h fuel level err b
        = some (b ++ String.join ((objs.enumFrom level).map
            (fun x => formatStack x.1 x.2 "" ++ formatContext M x.1 x.2 ""))) := by
  induction hchain with
  | nil =>
    intro level
    exact ⟨0, fun fuel _ b => by simp [Format.loop_nil, String.join]⟩
  | plain msg _ ih =>
    intro level
    obtain ⟨n, hn⟩ := ih level
    refine ⟨n + 1, fun fuel hle b => ?_⟩
    obtain ⟨j, rfl⟩ : ∃ j, fuel = j + 1 := ⟨fuel - 1, by omega⟩
    simp only [Format.loop]
    exact hn j (by omega) b
  | @annotated p e objs hget _ ih =>
    intro level
    obtain ⟨n, hn⟩ := ih (level + 1)
    refine ⟨n + 1, fun fuel hle b => ?_⟩
    obtain ⟨j, rfl⟩ : ∃ j, fuel = j + 1 := ⟨fuel - 1, by omega⟩
    simp only [Format.loop, hget]
    rw [hn j (by omega), formatContext_append, formatStack_append]
    simp only [List.enumFrom_cons, List.map_cons, join_cons, String.append_assoc]

theorem formatStack.loop_lines (l : Nat) :
    ∀ (fs : List Frame) (count : Nat) (prev : String),
      ∃ lines : List String, formatStack.loop l fs count prev "" = String.join lines ∧
        ∀ s ∈ lines, (∃ f ∈ fs, s = frameLine l f) ∨ (∃ n : Nat, 2 ≤ n ∧ s = summaryLine l n) := by
  intro fs
  induction fs with
  | nil =>
    intro count prev
    exact ⟨[], by simp [formatStack.loop, String.join], fun s hs => by cases hs⟩
  | cons f rest ih =>
    intro count prev
    simp only [formatStack.loop]
    have hup : ∀ (lines : List String),
        (∀ s ∈ lines, (∃ g ∈ rest, s = frameLine l g) ∨
          (∃ n : Nat, 2 ≤ n ∧ s = summaryLine l n)) →
        ∀ s ∈ lines, (∃ g ∈ f :: rest, s = frameLine l g) ∨
          (∃ n : Nat, 2 ≤ n ∧ s = summaryLine l n) := by
      intro lines hall s hs
      rcases hall s hs with ⟨g, hg, hsg⟩ | hsum
      · exact Or.inl ⟨g, List.mem_cons_of_mem _ hg, hsg⟩
      · exact Or.inr hsum
    by_cases hp : prev = frameLine l f
    · rw [if_pos hp]
      obtain ⟨lines, hl, hind⟩ := ih (count + 1) prev
      exact ⟨lines, hl, hup lines hind⟩
    · rw [if_neg hp, formatStack.loop_append]
      obtain ⟨lines, hl, hind⟩ := ih 0 (frameLine l f)
      by_cases hc : count ≠ 0
      · refine ⟨summaryLine l (count + 1) :: frameLine l f :: lines, ?_, ?_⟩
        · rw [if_pos hc, hl]
          simp only [join_cons, String.empty_append, String.append_assoc]
        · intro s hs
          rcases List.mem_cons.mp hs with h1 | h2
          · exact Or.inr ⟨count + 1, by omega, h1⟩
          · rcases List.mem_cons.mp h2 with h3 | h4
            · exact Or.inl ⟨f, List.mem_cons_self _ _, h3⟩
            · exact hup lines hind s h4
      · refine ⟨frameLine l f :: lines, ?_, ?_⟩
        · rw [if_neg hc, hl]
          simp only [join_cons, String.empty_append]
        · intro s hs
          rcases List.mem_cons.mp hs with h3 | h4
          · exact Or.inl ⟨f, List.mem_cons_self _ _, h3⟩
          · exact hup lines hind s h4

/-- C18: for a finite chain of causes from `err`, with `objs` the `*Error`
objects on it from the outermost to the innermost, `Format(err)` returns, given
enough fuel, the header (`error: ` and the text `fmt` writes for `err`, which
is `<nil>` for nil and the text of `Error()` when that call returns) followed
by the Stack section and then the Context section of each object in that
order, the `k`-th object (counting from 1) rendered at level `k`; errors that
are not `*Error` add nothing and leave the level as it is.  The two sections
of an object at level `k` are a concatenation of lines, each of which is a
newline, exactly `k` tabs and then the text of a frame of its `Stack`, of a
summary, or of a rendered pair of its `Context`. -/
theorem format_chain_sections (MaxColumnWidth : Int) (h : Heap) (err : error)
    (objs : List Error) (hchain : Chain h err objs) :
    (∃ (n : Nat) (text : String),
      (err = .nil → text = "<nil>") ∧
      (∀ (m : String) (k : Nat), error.Error h k err = some m → text = m) ∧
      ∀ fuel, n ≤ fuel →
        fmtV h fuel err = some text ∧
        Format MaxColumnWidth h fuel err
          = some ("error: " ++ text ++ String.join ((objs.enumFrom 1).map
              (fun x => formatStack x.1 x.2 "" ++ formatContext MaxColumnWidth x.1 x.2 "")))) ∧
    (∀ (level : Nat) (e : Error),
      (∃ lines : List String, formatStack level e "" = String.join lines ∧
        ∀ s ∈ lines,
          (∃ f ∈ e.Stack, s = "\n" ++ String.mk (List.replicate level '\t') ++ "from "
            ++ path.Base f.Func ++ "() at " ++ f.File ++ ":" ++ toString f.Line) ∨
          (∃ n : Nat, 2 ≤ n ∧
            s = "\n" ++ String.mk (List.replicate level '\t') ++ "     ... * "
              ++ toString n)) ∧
      formatContext MaxColumnWidth level e ""
        = String.join ((rendered e.Context).map (fun x =>
            "\n" ++ String.mk (List.replicate level '\t') ++ "[ "
              ++ fmtLeft (formatContext.maxWidth MaxColumnWidth e.Context (0, 0)).1 x.key
              ++ " ]" ++ "    "
              ++ fmtRight (formatContext.maxWidth MaxColumnWidth e.Context (0, 0)).2 x.value
              ++ (if x.pos = 0 then "    by " ++ path.Base x.func ++ "()" else "")))) := by
  constructor
  · obtain ⟨n, hn⟩ := Format.loop_chain MaxColumnWidth h err objs hchain 1
    obtain ⟨n2, text, htext⟩ := fmtV_ends h err objs hchain
    refine ⟨Nat.max n n2, text, ?_, ?_, fun fuel hle => ?_⟩
    · intro hnil
      have h1 := htext n2 (Nat.le_refl _)
      rw [hnil] at h1
      exact (Option.some.inj h1).symm
    · intro m k hm
      have h1 := htext (Nat.max k n2) (Nat.le_max_right _ _)
      have h2 := fmtV_of_Error h (Nat.max k n2) err m
        (error.Error_mono h k err m hm _ (Nat.le_max_left _ _))
      rw [h1] at h2
      exact Option.some.inj h2
    · have hk : n2 ≤ fuel := Nat.le_trans (Nat.le_max_right n n2) hle
      have hn1 : n ≤ fuel := Nat.le_trans (Nat.le_max_left n n2) hle
      refine ⟨htext fuel hk, ?_⟩
      simp only [Format, htext fuel hk]
      exact hn fuel hn1 _
  · intro level e
    obtain ⟨lines, hl, hind⟩ := formatStack.loop_lines level e.Stack 0 ""
    refine ⟨⟨lines, hl, ?_⟩, ?_⟩
    · intro s hs
      rcases hind s hs with ⟨f, hf, hsf⟩ | ⟨n, hn, hsn⟩
      · exact Or.inl ⟨f, hf, by rw [hsf]; rfl⟩
      · exact Or.inr ⟨n, hn, by rw [hsn]; rfl⟩
    · rw [formatContext_rendered, String.empty_append]
      congr 1
      apply List.map_congr_left
      intro x _
      simp only [entryLine, tabs, String.append_assoc]

theorem format_chain_sections_witness :
    ∃ (n : Nat) (text : String), ∀ fuel, n ≤ fuel →
      fmtV [⟨.plain "x" .nil, [⟨"main.f", "a.go", 1⟩], []⟩,
          ⟨.plain "ctx: x" (.annotated 0), [⟨"main.g", "b.go", 2⟩], []⟩] fuel (.annotated 1)
        = some text ∧
      Format 25 [⟨.plain "x" .nil, [⟨"main.f", "a.go", 1⟩], []⟩,
          ⟨.plain "ctx: x" (.annotated 0), [⟨"main.g", "b.go", 2⟩], []⟩] fuel (.annotated 1)
        = some ("error: " ++ text ++ String.join
            ((([⟨.plain "ctx: x" (.annotated 0), [⟨"main.g", "b.go", 2⟩], []⟩,
              ⟨.plain "x" .nil, [⟨"main.f", "a.go", 1⟩], []⟩] : List Error).enumFrom 1).map
              (fun x => formatStack x.1 x.2 "" ++ formatContext 25 x.1 x.2 ""))) := by
  obtain ⟨n, text, _, _, h3⟩ :=
    (format_chain_sections 25 [⟨.plain "x" .nil, [⟨"main.f", "a.go", 1⟩], []⟩,
        ⟨.plain "ctx: x" (.annotated 0), [⟨"main.g", "b.go", 2⟩], []⟩] (.annotated 1)
      [⟨.plain "ctx: x" (.annotated 0), [⟨"main.g", "b.go", 2⟩], []⟩,
        ⟨.plain "x" .nil, [⟨"main.f", "a.go", 1⟩], []⟩]
      (Chain.annotated rfl (Chain.plain _ (Chain.annotated rfl (Chain.plain _ Chain.nil))))).1
  exact ⟨n, text, h3⟩

/-! ## The Context section, line by line -/

theorem formatContext_lines (M : Int) (l : Nat) (e : Error) (b : String) :
    formatContext M l e b
      = b ++ String.join ((rendered e.Context).map (fun x =>
          "\n" ++ String.mk (List.replicate l '\t') ++ "[ "
            ++ fmtLeft (formatContext.maxWidth M e.Context (0, 0)).1 x.key
            ++ " ]" ++ "    "
            ++ fmtRight (formatContext.maxWidth M e.Context (0, 0)).2 x.value
            ++ (if x.pos = 0 then "    by " ++ path.Base x.func ++ "()" else ""))) := by
  rw [formatContext_rendered]
  congr 2
  apply List.map_congr_left
  intro x _
  simp only [entryLine, tabs, String.append_assoc]

theorem fmt_in_full (w : Int) (s : String) :
    (∃ pre post, fmtLeft w s = pre ++ s ++ post) ∧
    (∃ pre post, fmtRight w s = pre ++ s ++ post) := by
  constructor
  · by_cases hbad : w > 1000000 ∨ w < -1000000
    · exact ⟨"%!(BADWIDTH)", "", by simp [fmtLeft, hbad]⟩
    · exact ⟨"", padding (if w < 0 then -w else w) s, by simp [fmtLeft, hbad]⟩
  · by_cases hbad : w > 1000000 ∨ w < -1000000
    · exact ⟨"%!(BADWIDTH)", "", by simp [fmtRight, hbad]⟩
    · by_cases hneg : w < 0
      · exact ⟨"", padding (-w) s, by simp [fmtRight, hbad, hneg]⟩
      · exact ⟨padding w s, "", by simp [fmtRight, hbad, hneg]⟩

/-- C13, amended: the Context section that `formatContext` writes is the
concatenation of the lines of the rendered pairs, and a line ends with the
attribution, four blanks, `by `, the base name of the layer's `Func` and `()`,
exactly when its pair is at position 0.  Let `(k, v)` be the position-0 pair
of the layer `L` at index `n`.  When no pair of an earlier layer has the key
`k`, exactly one rendered pair of `L` is at position 0, it is `(k, v)`, and it
is the first rendered pair of `L`.  When an earlier pair has the key `k`, no
rendered pair of `L` is at position 0, so no line of `L` has an
attribution. -/
theorem attribution_once_on_head (MaxColumnWidth : Int) (l : Nat) (e : Error) (b : String)
    (n : Nat) (L : Layer) (k v : String) (hL : e.Context[n]? = some L)
    (hk : L.Values[0]? = some k) (hv : L.Values[1]? = some v) :
    formatContext MaxColumnWidth l e b
      = b ++ String.join ((rendered e.Context).map (fun x =>
          "\n" ++ String.mk (List.replicate l '\t') ++ "[ "
            ++ fmtLeft (formatContext.maxWidth MaxColumnWidth e.Context (0, 0)).1 x.key
            ++ " ]" ++ "    "
            ++ fmtRight (formatContext.maxWidth MaxColumnWidth e.Context (0, 0)).2 x.value
            ++ (if x.pos = 0 then "    by " ++ path.Base x.func ++ "()" else ""))) ∧
    (∀ x ∈ rendered e.Context, x.layer = n → x.func = L.Func) ∧
    ((∀ y ∈ contextEntries e.Context 0, y.layer < n → y.key ≠ k) →
      (rendered e.Context).filter (fun x => decide (x.layer = n ∧ x.pos = 0))
        = [⟨n, 0, k, v, L.Func⟩] ∧
      ((rendered e.Context).filter (fun x => decide (x.layer = n))).head?
        = some ⟨n, 0, k, v, L.Func⟩) ∧
    ((∃ y ∈ contextEntries e.Context 0, y.layer < n ∧ y.key = k) →
      ∀ x ∈ rendered e.Context, x.layer = n → x.pos ≠ 0) := by
  have hsub : ∀ x ∈ rendered e.Context, x ∈ contextEntries e.Context 0 :=
    fun x hx => (keepUnseen_sublist _ _).subset hx
  have hord := rendered_pairwise e.Context
  refine ⟨formatContext_lines MaxColumnWidth l e b, ?_, ?_, ?_⟩
  · intro x hx h1
    obtain ⟨L1, a1, a2, _⟩ := (mem_contextEntries_zero e.Context x).mp (hsub x hx)
    rw [h1, hL] at a1
    simp only [Option.some.injEq] at a1
    rw [a2, a1]
  · intro hnew
    have hmem : (Entry.mk n 0 k v L.Func) ∈ rendered e.Context :=
      (rendered_head_iff e.Context n L k v hL hk hv).mpr hnew
    have hnd : (rendered e.Context).Nodup := by
      refine List.Pairwise.imp ?_ hord
      intro a c hr hac
      rw [hac] at hr
      rcases hr with h1 | ⟨_, h2⟩
      · exact Nat.lt_irrefl _ h1
      · exact Nat.lt_irrefl _ h2
    refine ⟨?_, ?_⟩
    · apply filter_eq_singleton _ _ _ hnd hmem
      intro x hx
      simp only [decide_eq_true_eq]
      constructor
      · rintro ⟨h1, h2⟩
        exact entry_eq_head e.Context n L k v x hL hk hv (hsub x hx) h1 h2
      · intro hxa; rw [hxa]; exact ⟨rfl, rfl⟩
    · apply head?_of_least _ _ _ (List.Pairwise.filter _ hord)
      · exact List.mem_filter.mpr ⟨hmem, by simp⟩
      · intro x hx hr
        have hxn : x.layer = n := by simpa using (List.mem_filter.mp hx).2
        rcases hr with h1 | ⟨_, h2⟩
        · rw [hxn] at h1; exact Nat.lt_irrefl _ h1
        · exact Nat.not_lt_zero _ h2
  · rintro ⟨y, hy, hlt, hyk⟩ x hx h1 hpos
    have hx0 := entry_eq_head e.Context n L k v x hL hk hv (hsub x hx) h1 hpos
    rw [hx0] at hx
    exact (rendered_head_iff e.Context n L k v hL hk hv).mp hx y hy hlt hyk

theorem attribution_once_on_head_witness :
    (rendered [⟨"main.caller1", ["op", "write", "file", "x.txt"]⟩,
        ⟨"main.caller2", ["id", "7", "retries", "3"]⟩]).filter
      (fun x => decide (x.layer = 1 ∧ x.pos = 0))
      = [⟨1, 0, "id", "7", "main.caller2"⟩] ∧
    ∀ x ∈ rendered [⟨"main.caller1", ["op", "write", "file", "x.txt"]⟩,
        ⟨"main.caller2", ["op", "write", "retries", "3"]⟩], x.layer = 1 → x.pos ≠ 0 :=
  ⟨((attribution_once_on_head 25 1
      ⟨.nil, [], [⟨"main.caller1", ["op", "write", "file", "x.txt"]⟩,
        ⟨"main.caller2", ["id", "7", "retries", "3"]⟩]⟩ "" 1
      ⟨"main.caller2", ["id", "7", "retries", "3"]⟩ "id" "7" rfl rfl rfl).2.2.1
      (by decide)).1,
   (attribution_once_on_head 25 1
      ⟨.nil, [], [⟨"main.caller1", ["op", "write", "file", "x.txt"]⟩,
        ⟨"main.caller2", ["op", "write", "retries", "3"]⟩]⟩ "" 1
      ⟨"main.caller2", ["op", "write", "retries", "3"]⟩ "op" "write" rfl rfl rfl).2.2.2
      ⟨⟨0, 0, "op", "write", "main.caller1"⟩, by decide, by decide, rfl⟩⟩

/-- C14: the Context section that `formatContext` writes is the concatenation
of the lines of the rendered pairs, in which every key is written with `%-*s`
at the key width and every value with `%*s` at the value width, and these two
widths are the maxima of `len(item)` over the entries at even, respectively
odd, index of all `Values` (every layer, every entry, rendered or not) with
`len(item) <= MaxColumnWidth`: each is an upper bound of those lengths, and is
either 0 or attained by such an entry, hence 0 when no entry qualifies.  Each
width is at least 0 and, for `MaxColumnWidth >= 0`, at most `MaxColumnWidth`.
An entry longer than the cap leaves the widths as they are, and every line
holds its key and its value in full, with text only before, between and after
them. -/
theorem context_widths (MaxColumnWidth : Int) (l : Nat) (e : Error) (b : String) :
    formatContext MaxColumnWidth l e b
      = b ++ String.join ((rendered e.Context).map (fun x =>
          "\n" ++ String.mk (List.replicate l '\t') ++ "[ "
            ++ fmtLeft (formatContext.maxWidth MaxColumnWidth e.Context (0, 0)).1 x.key
            ++ " ]" ++ "    "
            ++ fmtRight (formatContext.maxWidth MaxColumnWidth e.Context (0, 0)).2 x.value
            ++ (if x.pos = 0 then "    by " ++ path.Base x.func ++ "()" else ""))) ∧
    (∀ L ∈ e.Context, ∀ j item, L.Values[j]? = some item →
      (item.utf8ByteSize : Int) ≤ MaxColumnWidth →
      (j % 2 = 0 → (item.utf8ByteSize : Int)
        ≤ (formatContext.maxWidth MaxColumnWidth e.Context (0, 0)).1) ∧
      (j % 2 = 1 → (item.utf8ByteSize : Int)
        ≤ (formatContext.maxWidth MaxColumnWidth e.Context (0, 0)).2)) ∧
    ((formatContext.maxWidth MaxColumnWidth e.Context (0, 0)).1 = 0 ∨
      ∃ L ∈ e.Context, ∃ j item, L.Values[j]? = some item ∧ j % 2 = 0 ∧
        (item.utf8ByteSize : Int) ≤ MaxColumnWidth ∧
        (formatContext.maxWidth MaxColumnWidth e.Context (0, 0)).1 = item.utf8ByteSize) ∧
    ((formatContext.maxWidth MaxColumnWidth e.Context (0, 0)).2 = 0 ∨
      ∃ L ∈ e.Context, ∃ j item, L.Values[j]? = some item ∧ j % 2 = 1 ∧
        (item.utf8ByteSize : Int) ≤ MaxColumnWidth ∧
        (formatContext.maxWidth MaxColumnWidth e.Context (0, 0)).2 = item.utf8ByteSize) ∧
    (0 ≤ (formatContext.maxWidth MaxColumnWidth e.Context (0, 0)).1 ∧
      0 ≤ (formatContext.maxWidth MaxColumnWidth e.Context (0, 0)).2) ∧
    (0 ≤ MaxColumnWidth →
      (formatContext.maxWidth MaxColumnWidth e.Context (0, 0)).1 ≤ MaxColumnWidth ∧
      (formatContext.maxWidth MaxColumnWidth e.Context (0, 0)).2 ≤ MaxColumnWidth) ∧
    (∀ (item : String) (vs : List String) (i : Nat) (w : Int × Int),
      MaxColumnWidth < (item.utf8ByteSize : Int) →
      formatContext.widthValues MaxColumnWidth (item :: vs) i w
        = formatContext.widthValues MaxColumnWidth vs (i + 1) w) ∧
    (∀ (w : Int) (s : String), (∃ pre post, fmtLeft w s = pre ++ s ++ post) ∧
      (∃ pre post, fmtRight w s = pre ++ s ++ post)) ∧
    (∀ x : Entry, ∃ a c d : String,
      "\n" ++ String.mk (List.replicate l '\t') ++ "[ "
        ++ fmtLeft (formatContext.maxWidth MaxColumnWidth e.Context (0, 0)).1 x.key
        ++ " ]" ++ "    "
        ++ fmtRight (formatContext.maxWidth MaxColumnWidth e.Context (0, 0)).2 x.value
        ++ (if x.pos = 0 then "    by " ++ path.Base x.func ++ "()" else "")
      = a ++ x.key ++ c ++ x.value ++ d) := by
  obtain ⟨⟨a1, a2⟩, a3, a4, a5⟩ :=
    formatContext.maxWidth_spec MaxColumnWidth e.Context (0, 0)
  refine ⟨formatContext_lines MaxColumnWidth l e b, a3, a4, a5, ⟨a1, a2⟩, ?_, ?_,
    fmt_in_full, ?_⟩
  · intro hM
    constructor
    · rcases a4 with h0 | ⟨_, _, _, _, _, _, hle, hv⟩
      · rw [h0]; exact hM
      · rw [hv]; exact hle
    · rcases a5 with h0 | ⟨_, _, _, _, _, _, hle, hv⟩
      · rw [h0]; exact hM
      · rw [hv]; exact hle
  · intro item vs i w hlt
    have hM : ¬ (item.utf8ByteSize : Int) ≤ MaxColumnWidth := not_le.mpr hlt
    simp [formatContext.widthValues, hM]
  · intro x
    obtain ⟨p1, q1, h1⟩ :=
      (fmt_in_full (formatContext.maxWidth MaxColumnWidth e.Context (0, 0)).1 x.key).1
    obtain ⟨p2, q2, h2⟩ :=
      (fmt_in_full (formatContext.maxWidth MaxColumnWidth e.Context (0, 0)).2 x.value).2
    refine ⟨"\n" ++ String.mk (List.replicate l '\t') ++ "[ " ++ p1,
      q1 ++ " ]" ++ "    " ++ p2,
      q2 ++ (if x.pos = 0 then "    by " ++ path.Base x.func ++ "()" else ""), ?_⟩
    rw [h1, h2]
    simp only [String.append_assoc]

theorem context_widths_witness :
    (2 : Int) ≤ (formatContext.maxWidth 25
      [⟨"main.f", ["id", "7", "a-key-that-is-longer-than-the-cap", "x"]⟩] (0, 0)).1 ∧
    (formatContext.maxWidth 25
      [⟨"main.f", ["id", "7", "a-key-that-is-longer-than-the-cap", "x"]⟩] (0, 0)).1 ≤ 25 ∧
    formatContext 25 1
        ⟨.nil, [], [⟨"main.f", ["id", "7", "a-key-that-is-longer-than-the-cap", "x"]⟩]⟩ ""
      = "\n\t[ id ]    7    by main.f()\n\t[ a-key-that-is-longer-than-the-cap ]    x" :=
  ⟨((context_widths 25 1
      ⟨.nil, [], [⟨"main.f", ["id", "7", "a-key-that-is-longer-than-the-cap", "x"]⟩]⟩ "").2.1
      ⟨"main.f", ["id", "7", "a-key-that-is-longer-than-the-cap", "x"]⟩
      (List.mem_singleton.mpr rfl) 0 "id" rfl (by decide)).1 rfl,
   ((context_widths 25 1
      ⟨.nil, [], [⟨"main.f", ["id", "7", "a-key-that-is-longer-than-the-cap", "x"]⟩]⟩
      "").2.2.2.2.2.1 (by decide)).1,
   ((context_widths 25 1
      ⟨.nil, [], [⟨"main.f", ["id", "7", "a-key-that-is-longer-than-the-cap", "x"]⟩]⟩
      "").1).trans (by decide)⟩

end Btw
